import Mathlib

/-!
Verification of the backtracking regex VM in `src/vm.rs` (fancy-regex).

The Rust code is shallowly embedded:

* Rust `Vec` values that are pushed/popped at the end are modeled as Lean
  `List`s with the TOP at the HEAD: `v.push(x)` becomes `x :: l`,
  `v.pop()` takes the head, `v[v.len() - i - 1]` is the element at list
  index `i - 1`, `v.truncate(k)` keeps the bottom `k` elements and is
  `l.drop (l.length - k)`.
* `usize` is modeled as `Nat`; `usize::MAX` is the constant `USIZE_MAX`.
  Subtraction appears only where the source guarantees no underflow; in
  those places Lean's truncated subtraction coincides with the Rust value.
* Indexing `saves[slot]` (which panics when out of bounds in Rust) is
  modeled totally with `List.getD _ _ 0` / `List.set` (`set` out of bounds
  is a no-op); all theorems about slot contents carry in-bounds hypotheses.
* Byte reads from the input string are modeled with `Option`: a `none`
  marks a read that would panic in Rust (out-of-bounds index).  The
  dispatcher surfaces this as an explicit `panic` outcome.
* Tracing (`options & OPTION_TRACE`, `trace_stack`, `println!`) is pure
  diagnostics and is omitted.
-/

namespace Vm

/-- `usize::MAX`, the "unset" sentinel of the slot vector. -/
def USIZE_MAX : Nat := 2 ^ 64 - 1

/-- `const MAX_STACK: usize = 1000000;` -/
def MAX_STACK : Nat := 1000000

/-- Execution state of the VM (`struct State` in `src/vm.rs`).
`stack` entries are `(pc, ix, nsave)`; `oldsave` entries are
`(slot, prior value)`.  Both lists keep the top of the Rust `Vec` at the
head.  The `options` field (tracing only) is omitted. -/
structure State where
  saves : List Nat
  stack : List (Nat × Nat × Nat)
  oldsave : List (Nat × Nat)
  nsave : Nat
  explicit_sp : Nat
  max_stack : Nat
  deriving Repr, DecidableEq

namespace State

/-- `State::new` -/
def new (n_saves max_stack : Nat) : State :=
  { saves := List.replicate n_saves USIZE_MAX
    stack := []
    oldsave := []
    nsave := 0
    explicit_sp := n_saves
    max_stack := max_stack }

/-- `State::push`: push a backtrack branch; `none` is `Err(StackOverflow)`. -/
def push (st : State) (pc ix : Nat) : Option State :=
  if st.stack.length < st.max_stack then
    some { st with stack := (pc, ix, st.nsave) :: st.stack, nsave := 0 }
  else
    none

/-- Replay a list of undo-log entries (top of the log first) onto the slot
vector, exactly as the loop in `State::pop` does. -/
def applyUndo (entries : List (Nat × Nat)) (saves : List Nat) : List Nat :=
  entries.foldl (fun sv e => sv.set e.1 e.2) saves

/-- `State::pop`: rewind the top `nsave` undo entries, then pop the top
frame.  `none` models the `unwrap` panic on an empty stack. -/
def pop (st : State) : Option ((Nat × Nat) × State) :=
  match st.stack with
  | [] => none
  | (pc, ix, ns) :: rest =>
      some ((pc, ix),
        { st with
            saves := applyUndo (st.oldsave.take st.nsave) st.saves
            oldsave := st.oldsave.drop st.nsave
            stack := rest
            nsave := ns })

/-- `State::save`: copy-on-write write to a slot.  The scan over the top
`nsave` entries of `oldsave` in the source is the `any` over
`oldsave.take nsave` here. -/
def save (st : State) (slot val : Nat) : State :=
  if (st.oldsave.take st.nsave).any (fun e => e.1 == slot) then
    { st with saves := st.saves.set slot val }
  else
    { st with
        oldsave := (slot, st.saves.getD slot 0) :: st.oldsave
        nsave := st.nsave + 1
        saves := st.saves.set slot val }

/-- `State::get` -/
def get (st : State) (slot : Nat) : Nat :=
  st.saves.getD slot 0

/-- `State::stack_push`: push a value onto the explicit stack. -/
def stack_push (st : State) (val : Nat) : State :=
  let st1 :=
    if st.saves.length = st.explicit_sp then
      { st with saves := st.saves ++ [st.explicit_sp + 1] }
    else st
  let sp := st1.get st1.explicit_sp
  let st2 :=
    if st1.saves.length = sp then
      { st1 with saves := st1.saves ++ [val] }
    else st1.save sp val
  st2.save st2.explicit_sp (sp + 1)

/-- `State::stack_pop`: pop a value from the explicit stack. -/
def stack_pop (st : State) : Nat × State :=
  let sp := st.get st.explicit_sp - 1
  let result := st.get sp
  (result, st.save st.explicit_sp sp)

/-- `State::backtrack_count` -/
def backtrack_count (st : State) : Nat :=
  st.stack.length

/-- The compaction scan of `State::backtrack_cut`: keep, in chronological
order, the first entry for each slot not already in `seen`.  This is the
`saved.insert(slot)` / `swap` loop of the source. -/
def firstOcc : List Nat → List (Nat × Nat) → List (Nat × Nat)
  | _, [] => []
  | seen, e :: rest =>
      if e.1 ∈ seen then firstOcc seen rest
      else e :: firstOcc (e.1 :: seen) rest

/-- `State::backtrack_cut`: discard backtrack frames above height `count`,
folding their undo-log segments into the surviving frame.

Correspondence with the source's bottom-based indices (`L` = stack length,
`count < L`):
* Rust's region `oldsave[oldsave_ix..]` (entries logged since the push of
  frame `count`) is the first `nsave + Σ stack[count+1..].nsave` entries
  here (`discard`), in reverse chronological order.
* Rust's surviving segment `oldsave[oldsave_start..oldsave_ix]`
  (`stack[count].2` entries) is `keepSeg`.
* The kept first occurrences are appended after `keepSeg` in chronological
  order, hence `folded.reverse` sits above `keepSeg` here.
* `stack.truncate(count)` keeps the bottom `count` frames.
* `nsave = oldsave_ix - oldsave_start` is `segC + folded.length`. -/
def backtrack_cut (st : State) (count : Nat) : State :=
  if st.stack.length = count then st
  else
    let dropCount := st.stack.length - count
    let sumAbove := ((st.stack.take (dropCount - 1)).map (fun f => f.2.2)).sum
    let discardLen := st.nsave + sumAbove
    let segC := ((st.stack.get? (dropCount - 1)).map (fun f => f.2.2)).getD 0
    let discard := st.oldsave.take discardLen
    let keepSeg := (st.oldsave.drop discardLen).take segC
    let folded := firstOcc (keepSeg.map Prod.fst) discard.reverse
    { st with
        stack := st.stack.drop dropCount
        oldsave := folded.reverse ++ keepSeg ++ st.oldsave.drop (discardLen + segC)
        nsave := segC + folded.length }

end State

/-- The naive model used by the quickcheck test `check_saves_for_operations`
(and by §8 of the spec): each backtrack frame copies the full slot vector,
`pop` restores it wholesale. -/
structure NState where
  saves : List Nat
  stack : List (Nat × Nat × List Nat)
  deriving Repr, DecidableEq

namespace NState

def new (n_saves : Nat) : NState :=
  { saves := List.replicate n_saves USIZE_MAX, stack := [] }

def push (nst : NState) (pc ix : Nat) : NState :=
  { nst with stack := (pc, ix, nst.saves) :: nst.stack }

def pop (nst : NState) : Option ((Nat × Nat) × NState) :=
  match nst.stack with
  | [] => none
  | (pc, ix, snap) :: rest => some ((pc, ix), { saves := snap, stack := rest })

def save (nst : NState) (slot val : Nat) : NState :=
  { nst with saves := nst.saves.set slot val }

def get (nst : NState) (slot : Nat) : Nat :=
  nst.saves.getD slot 0

/-- Naive `backtrack_cut`: simply discard every frame above height
`count`; the slot vector and the surviving snapshots are untouched. -/
def truncate (nst : NState) (count : Nat) : NState :=
  { nst with stack := nst.stack.drop (nst.stack.length - count) }

end NState

/-- The refinement relation between the copy-on-write backtrack data
(`stack`, `oldsave`, `nsave`, `saves`) and the naive snapshot stack:
rewinding the top `nsave` undo entries must reproduce the snapshot
stored in the top naive frame, and so on recursively; with no frames
left, every remaining undo entry belongs to the current frame. -/
def FramesInv : List (Nat × Nat × Nat) → List (Nat × Nat) → Nat → List Nat →
    List (Nat × Nat × List Nat) → Prop
  | [], old, ns, _, [] => old.length = ns
  | (pc, ix, fns) :: rest, old, ns, saves, (npc, nix, snap) :: nrest =>
      ns ≤ old.length ∧ pc = npc ∧ ix = nix ∧
      State.applyUndo (old.take ns) saves = snap ∧
      FramesInv rest (old.drop ns) fns (State.applyUndo (old.take ns) saves) nrest
  | _, _, _, _, _ => False

/-- Full refinement between an engine `State` and a naive `NState`. -/
def SInv (st : State) (nst : NState) : Prop :=
  st.saves = nst.saves ∧ st.nsave ≤ st.oldsave.length ∧
  FramesInv st.stack st.oldsave st.nsave st.saves nst.stack

/-- The operations of the randomized round-trip property (§8 of the spec,
`check_saves_for_operations` in the source's tests). -/
inductive Op where
  | push (pc ix : Nat)
  | pop
  | save (slot val : Nat)
  deriving Repr, DecidableEq

/-- Run a sequence of operations on the engine state; `none` when a push
overflows (or a pop hits an empty stack, which valid sequences avoid). -/
def runOps : List Op → State → Option State
  | [], st => some st
  | Op.push pc ix :: rest, st => (st.push pc ix).bind (runOps rest)
  | Op.pop :: rest, st => st.pop.bind (fun p => runOps rest p.2)
  | Op.save slot val :: rest, st => runOps rest (st.save slot val)

/-- Run the same sequence on the naive model (pops on an empty stack do
not occur in valid sequences; they are ignored here). -/
def runNOps : List Op → NState → NState
  | [], nst => nst
  | Op.push pc ix :: rest, nst => runNOps rest (nst.push pc ix)
  | Op.pop :: rest, nst =>
      match nst.pop with
      | some (_, nst') => runNOps rest nst'
      | none => runNOps rest nst
  | Op.save slot val :: rest, nst => runNOps rest (nst.save slot val)

/-- `pop` is applied only when the stack is non-empty: validity of an
operation sequence starting from stack depth `d`. -/
def ValidOps : List Op → Nat → Prop
  | [], _ => True
  | Op.push _ _ :: rest, d => ValidOps rest (d + 1)
  | Op.pop :: rest, d => 0 < d ∧ ValidOps rest (d - 1)
  | Op.save _ _ :: rest, d => ValidOps rest d

/-- Slots written by the sequence stay inside the slot vector. -/
def OpSlotOK : Op → Nat → Prop
  | Op.save slot _, n => slot < n
  | _, _ => True

/-- A sequence of `save(slot, val)` calls (one frame's writes), for the
undo-log first-write property. -/
def applySaves (st : State) (ops : List (Nat × Nat)) : State :=
  ops.foldl (fun s p => s.save p.1 p.2) st

/-- The last value written to `j` by a list of undo entries applied
head-first (i.e. the final content of slot `j` after `applyUndo`). -/
def lastVal (j : Nat) : List (Nat × Nat) → Option Nat
  | [] => none
  | e :: rest =>
      match lastVal j rest with
      | some v => some v
      | none => if e.1 = j then some e.2 else none

/-- The first value recorded for `j` in a list of undo entries. -/
def firstVal (j : Nat) : List (Nat × Nat) → Option Nat
  | [] => none
  | e :: rest => if e.1 = j then some e.2 else firstVal j rest

/-- The delta a frame has accumulated on top of a base state: `added` is
the top segment of the undo log, with one entry per touched slot holding
that slot's pre-frame value. -/
def FrameAdded (base : State) (added : List (Nat × Nat)) (st : State) : Prop :=
  st.stack = base.stack ∧ st.nsave = added.length ∧
  st.oldsave = added ++ base.oldsave ∧
  st.saves.length = base.saves.length ∧
  (added.map Prod.fst).Nodup ∧
  (∀ e ∈ added, e.2 = base.saves.getD e.1 0 ∧ e.1 < base.saves.length) ∧
  (∀ j, j ∉ added.map Prod.fst → st.saves.getD j 0 = base.saves.getD j 0)

/-- Modelled from the spec: the UTF-8 primitives (`codepoint_len`,
`prev_codepoint_ix`) live outside this subsystem ("The VM consumes them
as pure functions", §1); the dispatcher is parametric in them.
`codepoint_len` maps the first byte of a code point to its byte length. -/
structure Utf8Fns where
  codepoint_len : Nat → Nat
  prev_codepoint_ix : List Nat → Nat → Nat

/-- Modelled from the spec: the inner non-backtracking matcher is a
black box "capable of anchored `find` and `captures` against a suffix of
the input" (§1, §9).  `find?` returns the end offset of the match in the
given suffix; `captures?` returns the spans of all groups (index 0 is
the overall match), `none` entries for non-participating groups. -/
structure Rgx where
  is_match : List Nat → Bool
  find? : List Nat → Option Nat
  captures? : List Nat → Option (List (Option (Nat × Nat)))

/-- Instruction of the VM (`enum Insn`).  Literal strings and the input
are byte lists; the delegate regexes are the abstract `Rgx` above. -/
inductive Insn where
  | insnEnd
  | any
  | anyNoNL
  | lit (val : List Nat)
  | split (x y : Nat)
  | jmp (target : Nat)
  | save (slot : Nat)
  | save0 (slot : Nat)
  | restore (slot : Nat)
  | repeatGr (lo hi next rep : Nat)
  | repeatNg (lo hi next rep : Nat)
  | repeatEpsilonGr (lo next rep check : Nat)
  | repeatEpsilonNg (lo next rep check : Nat)
  | failNegativeLookAround
  | goBack (count : Nat)
  | backref (slot : Nat)
  | beginAtomic
  | endAtomic
  | delegateSized (inner : Rgx) (size : Nat)
  | delegate (inner : Rgx) (inner1 : Option Rgx) (start_group end_group : Nat)

/-- `struct Prog` -/
structure Prog where
  body : List Insn
  n_saves : Nat

/-- Result of executing one instruction.  `fail` is `break 'fail`;
`oflow` is `Err(StackOverflow)` propagated by `?`; `panic` marks an
operation that panics in Rust (out-of-bounds byte read, pop of an empty
stack inside `FailNegativeLookAround`, a missing overall capture). -/
inductive ExecOut where
  | next (pc ix : Nat) (st : State)
  | fail (st : State)
  | done (saves : List Nat)
  | oflow
  | panic

/-- `codepoint_len_at`: reads the byte at `ix` (`none` = would panic). -/
def codepoint_len_at (u : Utf8Fns) (s : List Nat) (ix : Nat) : Option Nat :=
  (s.get? ix).map u.codepoint_len

/-- Byte slice `s[a..b]` (`none` = would panic in Rust). -/
def sliceB (s : List Nat) (a b : Nat) : Option (List Nat) :=
  if a ≤ b ∧ b ≤ s.length then some ((s.take b).drop a) else none

/-- The loop of the `GoBack` arm: step `ix` back `n` code points,
failing (`none`) when `ix` hits 0 early. -/
def goBackIter (u : Utf8Fns) (s : List Nat) : Nat → Nat → Option Nat
  | 0, ix => some ix
  | n + 1, ix =>
      if ix = 0 then none else goBackIter u s n (u.prev_codepoint_ix s ix)

/-- The pop loop of the `FailNegativeLookAround` arm: pop frames until
the popped `pc` equals `target`.  `fuel` bounds the recursion; the arm
calls it with the stack length, so `none` exactly means the stack
drained without finding `target` (a panic in Rust). -/
def popUntilPc (target : Nat) : Nat → State → Option State
  | 0, _ => none
  | fuel + 1, st =>
      match st.pop with
      | none => none
      | some ((ppc, _), st') =>
          if ppc = target then some st' else popUntilPc target fuel st'

/-- The loop of the `DelegateSized` arm: advance `ix` by `n` code
points, reading a byte each time (`none` = would panic). -/
def advanceCodepoints (u : Utf8Fns) (s : List Nat) : Nat → Nat → Option Nat
  | 0, ix => some ix
  | n + 1, ix =>
      match codepoint_len_at u s ix with
      | some l => advanceCodepoints u s n (ix + l)
      | none => none

/-- The capture-writing loop of the `Delegate` arm: for inner group
`i + 1` write its span (offset by `ix`) into slots `2(start_group + i)`
and the one after, or the unset sentinel. -/
def writeGroups (ix : Nat) (caps : List (Option (Nat × Nat))) (start_group : Nat) :
    Nat → Nat → State → State
  | _, 0, st => st
  | i, n + 1, st =>
      let slot := (start_group + i) * 2
      let st' :=
        match caps.getD (i + 1) none with
        | some m => (st.save slot (ix + m.1)).save (slot + 1) (ix + m.2)
        | none => (st.save slot USIZE_MAX).save (slot + 1) USIZE_MAX
      writeGroups ix caps start_group (i + 1) n st'

/-- The body of the `Delegate` arm once the regex (`inner` or `inner1`)
and the possibly stepped-back index `ix1` are chosen: anchored `find`
when the delegate captures no groups, else `captures` with the group
spans written into the slots. -/
def runDelegate (pc ix1 : Nat) (s : List Nat) (st : State) (re : Rgx)
    (start_group end_group : Nat) : ExecOut :=
  if start_group = end_group then
    match re.find? (s.drop ix1) with
    | some e => ExecOut.next (pc + 1) (ix1 + e) st
    | none => ExecOut.fail st
  else
    match re.captures? (s.drop ix1) with
    | none => ExecOut.fail st
    | some caps =>
        match caps.getD 0 none with
        | some m =>
            ExecOut.next (pc + 1) (ix1 + m.2)
              (writeGroups ix1 caps start_group 0 (end_group - start_group) st)
        | none => ExecOut.panic

/-- One dispatch of `run`'s match on `prog.body[pc]` (§ the big `match`
in `run`).  Fetching an out-of-range `pc` is a panic in Rust.  The
source's local `let` bindings (`end`, `repcount`, `lo`, `hi`, `ix_end`)
are inlined; they bind pure expressions, so this is meaning-preserving. -/
def execInsn (u : Utf8Fns) (prog : Prog) (s : List Nat) (pc ix : Nat) (st : State) :
    ExecOut :=
  match prog.body.get? pc with
  | none => ExecOut.panic
  | some insn =>
    match insn with
    | Insn.insnEnd => ExecOut.done st.saves
    | Insn.any =>
        if ix < s.length then
          match codepoint_len_at u s ix with
          | some n => ExecOut.next (pc + 1) (ix + n) st
          | none => ExecOut.panic
        else ExecOut.fail st
    | Insn.anyNoNL =>
        if ix < s.length then
          match s.get? ix with
          | none => ExecOut.panic
          | some b =>
              if b ≠ 10 then
                match codepoint_len_at u s ix with
                | some n => ExecOut.next (pc + 1) (ix + n) st
                | none => ExecOut.panic
              else ExecOut.fail st
        else ExecOut.fail st
    | Insn.lit val =>
        if ix + val.length > s.length then ExecOut.fail st
        else
          match sliceB s ix (ix + val.length) with
          | none => ExecOut.panic
          | some seg =>
              if seg = val then ExecOut.next (pc + 1) (ix + val.length) st
              else ExecOut.fail st
    | Insn.split x y =>
        match st.push y ix with
        | some st' => ExecOut.next x ix st'
        | none => ExecOut.oflow
    | Insn.jmp target => ExecOut.next target ix st
    | Insn.save slot => ExecOut.next (pc + 1) ix (st.save slot ix)
    | Insn.save0 slot => ExecOut.next (pc + 1) ix (st.save slot 0)
    | Insn.restore slot => ExecOut.next (pc + 1) (st.get slot) st
    | Insn.repeatGr lo hi next rep =>
        if st.get rep = hi then ExecOut.next next ix st
        else
          if lo ≤ st.get rep then
            match (st.save rep (st.get rep + 1)).push next ix with
            | some st2 => ExecOut.next (pc + 1) ix st2
            | none => ExecOut.oflow
          else ExecOut.next (pc + 1) ix (st.save rep (st.get rep + 1))
    | Insn.repeatNg lo hi next rep =>
        if st.get rep = hi then ExecOut.next next ix st
        else
          if lo ≤ st.get rep then
            match (st.save rep (st.get rep + 1)).push (pc + 1) ix with
            | some st2 => ExecOut.next next ix st2
            | none => ExecOut.oflow
          else ExecOut.next (pc + 1) ix (st.save rep (st.get rep + 1))
    | Insn.repeatEpsilonGr lo next rep check =>
        if lo < st.get rep ∧ st.get check = ix then ExecOut.fail st
        else
          if lo ≤ st.get rep then
            match ((st.save rep (st.get rep + 1)).save check ix).push next ix with
            | some st3 => ExecOut.next (pc + 1) ix st3
            | none => ExecOut.oflow
          else ExecOut.next (pc + 1) ix (st.save rep (st.get rep + 1))
    | Insn.repeatEpsilonNg lo next rep check =>
        if lo < st.get rep ∧ st.get check = ix then ExecOut.fail st
        else
          if lo ≤ st.get rep then
            match ((st.save rep (st.get rep + 1)).save check ix).push (pc + 1) ix with
            | some st3 => ExecOut.next next ix st3
            | none => ExecOut.oflow
          else ExecOut.next (pc + 1) ix (st.save rep (st.get rep + 1))
    | Insn.failNegativeLookAround =>
        match popUntilPc (pc + 1) st.stack.length st with
        | some st' => ExecOut.fail st'
        | none => ExecOut.panic
    | Insn.goBack count =>
        match goBackIter u s count ix with
        | some ix' => ExecOut.next (pc + 1) ix' st
        | none => ExecOut.fail st
    | Insn.backref slot =>
        if st.get slot = USIZE_MAX then ExecOut.fail st
        else
          if ix + (st.get (slot + 1) - st.get slot) > s.length then ExecOut.fail st
          else
            match sliceB s ix (ix + (st.get (slot + 1) - st.get slot)),
                sliceB s (st.get slot) (st.get (slot + 1)) with
            | some a, some b =>
                if a = b then
                  ExecOut.next (pc + 1) (ix + (st.get (slot + 1) - st.get slot)) st
                else ExecOut.fail st
            | _, _ => ExecOut.panic
    | Insn.beginAtomic =>
        ExecOut.next (pc + 1) ix (st.stack_push st.backtrack_count)
    | Insn.endAtomic =>
        ExecOut.next (pc + 1) ix (st.stack_pop.2.backtrack_cut st.stack_pop.1)
    | Insn.delegateSized inner size =>
        if inner.is_match (s.drop ix) then
          match advanceCodepoints u s size ix with
          | some ix' => ExecOut.next (pc + 1) ix' st
          | none => ExecOut.panic
        else ExecOut.fail st
    | Insn.delegate inner inner1 start_group end_group =>
        match inner1 with
        | some r1 =>
            if 0 < ix then
              runDelegate pc (u.prev_codepoint_ix s ix) s st r1 start_group end_group
            else runDelegate pc ix s st inner start_group end_group
        | none => runDelegate pc ix s st inner start_group end_group

/-- Final results of `run`: `Ok(Some(saves))`, `Ok(None)`,
`Err(StackOverflow)`. -/
inductive RunResult where
  | matched (saves : List Nat)
  | noMatch
  | overflow
  deriving Repr

/-- One iteration of the outer loop of `run`: dispatch, and on `fail`
run the failure handler (return no-match on an empty stack, else pop and
resume). -/
inductive StepOut where
  | cont (pc ix : Nat) (st : State)
  | res (r : RunResult)
  | panic

def step (u : Utf8Fns) (prog : Prog) (s : List Nat) (pc ix : Nat) (st : State) :
    StepOut :=
  match execInsn u prog s pc ix st with
  | ExecOut.next pc' ix' st' => StepOut.cont pc' ix' st'
  | ExecOut.done sv => StepOut.res (RunResult.matched sv)
  | ExecOut.oflow => StepOut.res RunResult.overflow
  | ExecOut.panic => StepOut.panic
  | ExecOut.fail st' =>
      match st'.pop with
      | none => StepOut.res RunResult.noMatch
      | some ((npc, nix), st'') => StepOut.cont npc nix st''

/-- Fuel-indexed outcome of `run`'s loop.  The Rust loop has no fuel;
`outOfFuel` only says the chosen bound was insufficient. -/
inductive Outcome where
  | res (r : RunResult)
  | panic
  | outOfFuel
  deriving Repr

def runFuel (u : Utf8Fns) (prog : Prog) (s : List Nat) :
    Nat → Nat → Nat → State → Outcome
  | 0, _, _, _ => Outcome.outOfFuel
  | fuel + 1, pc, ix, st =>
      match step u prog s pc ix st with
      | StepOut.cont pc' ix' st' => runFuel u prog s fuel pc' ix' st'
      | StepOut.res r => Outcome.res r
      | StepOut.panic => Outcome.panic

/-- `run(prog, s, pos, _)` with the given fuel: starts at `pc = 0`,
`ix = pos`, on a fresh state with `MAX_STACK`. -/
def run (u : Utf8Fns) (prog : Prog) (s : List Nat) (pos fuel : Nat) : Outcome :=
  runFuel u prog s fuel 0 pos (State.new prog.n_saves MAX_STACK)

/-- Whether dispatching `insn` at `(st, ix)` reaches a `state.push`
call (read off the source arms that push). -/
def pushesNow (insn : Insn) (st : State) (ix : Nat) : Prop :=
  match insn with
  | Insn.split _ _ => True
  | Insn.repeatGr lo hi _ rep => st.get rep ≠ hi ∧ lo ≤ st.get rep
  | Insn.repeatNg lo hi _ rep => st.get rep ≠ hi ∧ lo ≤ st.get rep
  | Insn.repeatEpsilonGr lo _ rep check =>
      ¬(lo < st.get rep ∧ st.get check = ix) ∧ lo ≤ st.get rep
  | Insn.repeatEpsilonNg lo _ rep check =>
      ¬(lo < st.get rep ∧ st.get check = ix) ∧ lo ≤ st.get rep
  | _ => False

/-- The explicit stack holding values `vals` (bottom first): slot
`explicit_sp` holds the index of the next free explicit-stack slot,
which is `explicit_sp + 1 + depth`, and the `vals` sit in order just
above `explicit_sp`.  (The slot vector may extend further with stale
entries from popped explicit frames.) -/
def ExpStackInv (st : State) (vals : List Nat) : Prop :=
  st.explicit_sp + 1 + vals.length ≤ st.saves.length ∧
  st.get st.explicit_sp = st.explicit_sp + 1 + vals.length ∧
  ∀ i, i < vals.length → st.get (st.explicit_sp + 1 + i) = vals.getD i 0

/-! ### Helper lemmas on lists, `applyUndo` and the undo-log structure -/

theorem getD_set_self (l : List Nat) (i v : Nat) (h : i < l.length) :
    (l.set i v).getD i 0 = v := by
  induction l generalizing i with
  | nil => simp at h
  | cons a t ih =>
      cases i with
      | zero => simp
      | succ j => simpa using ih j (by simpa using h)

theorem getD_set_ne (l : List Nat) (i j v : Nat) (h : i ≠ j) :
    (l.set i v).getD j 0 = l.getD j 0 := by
  induction l generalizing i j with
  | nil => simp
  | cons a t ih =>
      cases i with
      | zero =>
          cases j with
          | zero => exact absurd rfl h
          | succ j' => simp
      | succ i' =>
          cases j with
          | zero => simp
          | succ j' =>
              have hne : i' ≠ j' := fun hc => h (by rw [hc])
              simpa using ih i' j' hne

theorem set_getD_self (l : List Nat) (i : Nat) : l.set i (l.getD i 0) = l := by
  induction l generalizing i with
  | nil => simp
  | cons a t ih =>
      cases i with
      | zero => simp
      | succ j => simpa using ih j

theorem getD_eq_default (l : List Nat) {j : Nat} (h : l.length ≤ j) :
    l.getD j 0 = 0 := by
  induction l generalizing j with
  | nil => simp
  | cons a t ih =>
      cases j with
      | zero => simp at h
      | succ j' => simpa using ih (by simpa using h)

theorem eq_of_getD (l₁ l₂ : List Nat) (hlen : l₁.length = l₂.length)
    (h : ∀ j, l₁.getD j 0 = l₂.getD j 0) : l₁ = l₂ := by
  induction l₁ generalizing l₂ with
  | nil => cases l₂ with
      | nil => rfl
      | cons b t => simp at hlen
  | cons a t ih =>
      cases l₂ with
      | nil => simp at hlen
      | cons b t₂ =>
          have h0 := h 0
          simp at h0
          have ht : t = t₂ := ih t₂ (by simpa using hlen) (fun j => by simpa using h (j + 1))
          rw [h0, ht]

namespace State

theorem applyUndo_nil (sv : List Nat) : applyUndo [] sv = sv := rfl

theorem applyUndo_cons (e : Nat × Nat) (es : List (Nat × Nat)) (sv : List Nat) :
    applyUndo (e :: es) sv = applyUndo es (sv.set e.1 e.2) := rfl

theorem applyUndo_append (a b : List (Nat × Nat)) (sv : List Nat) :
    applyUndo (a ++ b) sv = applyUndo b (applyUndo a sv) := by
  simp [applyUndo, List.foldl_append]

theorem applyUndo_length (es : List (Nat × Nat)) (sv : List Nat) :
    (applyUndo es sv).length = sv.length := by
  induction es generalizing sv with
  | nil => rfl
  | cons e t ih => simp [applyUndo_cons, ih, List.length_set]

end State

theorem lastVal_getD (es : List (Nat × Nat)) (sv : List Nat) (j : Nat)
    (hj : j < sv.length) :
    (State.applyUndo es sv).getD j 0 = (lastVal j es).getD (sv.getD j 0) := by
  induction es generalizing sv with
  | nil => simp [State.applyUndo_nil, lastVal]
  | cons e t ih =>
      rw [State.applyUndo_cons, ih _ (by simp [List.length_set, hj])]
      cases h : lastVal j t with
      | some v =>
          have hr : lastVal j (e :: t) = some v := by rw [lastVal, h]
          rw [hr]
          simp
      | none =>
          by_cases he : e.1 = j
          · have hr : lastVal j (e :: t) = some e.2 := by
              rw [lastVal, h, if_pos he]
            rw [hr]
            simp only [Option.getD_some, Option.getD_none]
            subst he
            exact getD_set_self sv e.1 e.2 hj
          · have hr : lastVal j (e :: t) = none := by
              rw [lastVal, h, if_neg he]
            rw [hr]
            simp only [Option.getD_none]
            exact getD_set_ne sv e.1 j e.2 he

theorem lastVal_eq_none_iff (j : Nat) (es : List (Nat × Nat)) :
    lastVal j es = none ↔ j ∉ es.map Prod.fst := by
  induction es with
  | nil => simp [lastVal]
  | cons e t ih =>
      constructor
      · intro h
        rw [lastVal] at h
        cases ht : lastVal j t with
        | some v => rw [ht] at h; exact absurd h (by simp)
        | none =>
            rw [ht] at h
            by_cases he : e.1 = j
            · rw [if_pos he] at h; exact absurd h (by simp)
            · simp only [List.map_cons, List.mem_cons]
              push_neg
              exact ⟨fun hc => he hc.symm, ih.mp ht⟩
      · intro h
        simp only [List.map_cons, List.mem_cons] at h
        push_neg at h
        rw [lastVal, ih.mpr h.2, if_neg (fun hc => h.1 hc.symm)]

theorem lastVal_mem {j v : Nat} {es : List (Nat × Nat)}
    (h : lastVal j es = some v) : (j, v) ∈ es := by
  induction es with
  | nil => simp [lastVal] at h
  | cons e t ih =>
      rw [lastVal] at h
      cases ht : lastVal j t with
      | some w =>
          rw [ht] at h
          exact List.mem_cons_of_mem _ (ih (ht.trans h))
      | none =>
          rw [ht] at h
          by_cases he : e.1 = j
          · rw [if_pos he] at h
            rw [List.mem_cons]
            left
            obtain ⟨e1, e2⟩ := e
            simp only at he h
            obtain rfl := he
            obtain rfl := Option.some.inj h
            rfl
          · rw [if_neg he] at h
            exact absurd h (by simp)

theorem lastVal_append (j : Nat) (a b : List (Nat × Nat)) :
    lastVal j (a ++ b) =
      match lastVal j b with
      | some v => some v
      | none => lastVal j a := by
  induction a with
  | nil =>
      simp only [List.nil_append]
      cases h : lastVal j b <;> simp [lastVal]
  | cons e t ih =>
      simp only [List.cons_append, lastVal, List.append_eq]
      rw [ih]
      cases hb : lastVal j b <;> cases ht : lastVal j t <;> simp [ht]

theorem lastVal_reverse (j : Nat) (l : List (Nat × Nat)) :
    lastVal j l.reverse = firstVal j l := by
  induction l with
  | nil => rfl
  | cons e t ih =>
      rw [List.reverse_cons, lastVal_append, ih]
      show (match lastVal j [e] with
            | some v => some v
            | none => firstVal j t) = firstVal j (e :: t)
      by_cases he : e.1 = j <;> simp [lastVal, firstVal, he]

theorem firstVal_firstOcc (j : Nat) (seen : List Nat) (l : List (Nat × Nat))
    (hj : j ∉ seen) : firstVal j (State.firstOcc seen l) = firstVal j l := by
  induction l generalizing seen with
  | nil => rfl
  | cons e t ih =>
      rw [State.firstOcc]
      by_cases he : e.1 ∈ seen
      · rw [if_pos he, ih seen hj, firstVal]
        have hne : e.1 ≠ j := fun hc => hj (hc ▸ he)
        rw [if_neg hne]
      · rw [if_neg he, firstVal, firstVal]
        by_cases hej : e.1 = j
        · rw [if_pos hej, if_pos hej]
        · rw [if_neg hej, if_neg hej]
          refine ih (e.1 :: seen) ?_
          simp only [List.mem_cons]
          push_neg
          exact ⟨fun hc => hej hc.symm, hj⟩

/-- The key folding identity behind `backtrack_cut`: replacing the
discarded region `D` of the undo log (most recent entry first) by the
first chronological occurrence of each slot not already present in the
surviving segment `K` does not change the rewound slot vector. -/
theorem fold_applyUndo (D K : List (Nat × Nat)) (sv : List Nat) :
    State.applyUndo ((State.firstOcc (K.map Prod.fst) D.reverse).reverse ++ K) sv =
      State.applyUndo (D ++ K) sv := by
  apply eq_of_getD
  · rw [State.applyUndo_length, State.applyUndo_length]
  · intro j
    by_cases hj : j < sv.length
    · rw [lastVal_getD _ _ _ hj, lastVal_getD _ _ _ hj]
      rw [lastVal_append, lastVal_append]
      cases hk : lastVal j K with
      | some v => simp
      | none =>
          have hnotin : j ∉ K.map Prod.fst := (lastVal_eq_none_iff j K).mp hk
          simp only []
          rw [lastVal_reverse, firstVal_firstOcc j _ _ hnotin, ← lastVal_reverse,
            List.reverse_reverse]
    · push_neg at hj
      rw [getD_eq_default _ (by rw [State.applyUndo_length]; exact hj),
        getD_eq_default _ (by rw [State.applyUndo_length]; exact hj)]

theorem lastVal_isSome_of_any {slot : Nat} {es : List (Nat × Nat)}
    (ha : es.any (fun e => e.1 == slot) = true) : ∃ v, lastVal slot es = some v := by
  cases h : lastVal slot es with
  | some v => exact ⟨v, rfl⟩
  | none =>
      exfalso
      have hnot := (lastVal_eq_none_iff slot es).mp h
      simp only [List.any_eq_true, beq_iff_eq] at ha
      obtain ⟨e, he, heq⟩ := ha
      exact hnot (List.mem_map.mpr ⟨e, he, heq⟩)

theorem applyUndo_set_of_any {slot : Nat} {es : List (Nat × Nat)} (sv : List Nat)
    (val : Nat) (ha : es.any (fun e => e.1 == slot) = true) :
    State.applyUndo es (sv.set slot val) = State.applyUndo es sv := by
  apply eq_of_getD
  · rw [State.applyUndo_length, State.applyUndo_length, List.length_set]
  · intro j
    by_cases hj : j < sv.length
    · have hj' : j < (sv.set slot val).length := by rw [List.length_set]; exact hj
      rw [lastVal_getD _ _ _ hj', lastVal_getD _ _ _ hj]
      by_cases hjs : j = slot
      · subst hjs
        obtain ⟨v, hv⟩ := lastVal_isSome_of_any ha
        rw [hv]
        simp
      · rw [getD_set_ne sv slot j val (fun hc => hjs hc.symm)]
    · push_neg at hj
      rw [getD_eq_default _ (by rw [State.applyUndo_length, List.length_set]; exact hj),
        getD_eq_default _ (by rw [State.applyUndo_length]; exact hj)]

/-! ### FramesInv preservation lemmas -/

theorem framesInv_ns_le {stack : List (Nat × Nat × Nat)} {old : List (Nat × Nat)}
    {ns : Nat} {saves : List Nat} {nstack : List (Nat × Nat × List Nat)}
    (h : FramesInv stack old ns saves nstack) : ns ≤ old.length := by
  cases stack with
  | nil =>
      cases nstack with
      | nil =>
          have hl : old.length = ns := by simpa [FramesInv] using h
          exact Nat.le_of_eq hl.symm
      | cons nf nrest => exact absurd h (by simp [FramesInv])
  | cons f rest =>
      obtain ⟨pc, ix, fns⟩ := f
      cases nstack with
      | nil => exact absurd h (by simp [FramesInv])
      | cons nf nrest =>
          obtain ⟨npc, nix, snap⟩ := nf
          exact h.1

theorem framesInv_length :
    ∀ {stack : List (Nat × Nat × Nat)} {old : List (Nat × Nat)} {ns : Nat}
      {saves : List Nat} {nstack : List (Nat × Nat × List Nat)},
      FramesInv stack old ns saves nstack → stack.length = nstack.length := by
  intro stack
  induction stack with
  | nil =>
      intro old ns saves nstack h
      cases nstack with
      | nil => rfl
      | cons nf nrest => exact absurd h (by simp [FramesInv])
  | cons f rest ih =>
      intro old ns saves nstack h
      obtain ⟨pc, ix, fns⟩ := f
      cases nstack with
      | nil => exact absurd h (by simp [FramesInv])
      | cons nf nrest =>
          obtain ⟨npc, nix, snap⟩ := nf
          simp only [List.length_cons]
          have := ih h.2.2.2.2
          omega

theorem framesInv_set_of_logged {stack : List (Nat × Nat × Nat)}
    {old : List (Nat × Nat)} {ns : Nat} {saves : List Nat}
    {nstack : List (Nat × Nat × List Nat)} {slot val : Nat}
    (h : FramesInv stack old ns saves nstack)
    (ha : (old.take ns).any (fun e => e.1 == slot) = true) :
    FramesInv stack old ns (saves.set slot val) nstack := by
  cases stack with
  | nil =>
      cases nstack with
      | nil => simpa [FramesInv] using h
      | cons nf nrest => exact absurd h (by simp [FramesInv])
  | cons f rest =>
      obtain ⟨pc, ix, fns⟩ := f
      cases nstack with
      | nil => exact absurd h (by simp [FramesInv])
      | cons nf nrest =>
          obtain ⟨npc, nix, snap⟩ := nf
          obtain ⟨h1, h2, h3, h4, h5⟩ := h
          have heq : State.applyUndo (old.take ns) (saves.set slot val) =
              State.applyUndo (old.take ns) saves := applyUndo_set_of_any saves val ha
          exact ⟨h1, h2, h3, heq.trans h4, by rw [heq]; exact h5⟩

theorem framesInv_save_new {stack : List (Nat × Nat × Nat)}
    {old : List (Nat × Nat)} {ns : Nat} {saves : List Nat}
    {nstack : List (Nat × Nat × List Nat)} (slot val : Nat)
    (h : FramesInv stack old ns saves nstack) :
    FramesInv stack ((slot, saves.getD slot 0) :: old) (ns + 1)
      (saves.set slot val) nstack := by
  have hkey : State.applyUndo (((slot, saves.getD slot 0) :: old).take (ns + 1))
      (saves.set slot val) = State.applyUndo (old.take ns) saves := by
    rw [List.take_succ_cons, State.applyUndo_cons]
    show State.applyUndo (old.take ns)
        ((saves.set slot val).set slot (saves.getD slot 0)) =
      State.applyUndo (old.take ns) saves
    rw [List.set_set, set_getD_self]
  cases stack with
  | nil =>
      cases nstack with
      | nil =>
          have hl : old.length = ns := by simpa [FramesInv] using h
          simp [FramesInv, hl]
      | cons nf nrest => exact absurd h (by simp [FramesInv])
  | cons f rest =>
      obtain ⟨pc, ix, fns⟩ := f
      cases nstack with
      | nil => exact absurd h (by simp [FramesInv])
      | cons nf nrest =>
          obtain ⟨npc, nix, snap⟩ := nf
          obtain ⟨h1, h2, h3, h4, h5⟩ := h
          refine ⟨by simp; omega, h2, h3, hkey.trans h4, ?_⟩
          rw [hkey, List.drop_succ_cons]
          exact h4 ▸ h5

/-! ### SInv preservation -/

theorem sinv_push {st : State} {nst : NState} (pc ix : Nat) (h : SInv st nst)
    (hcap : st.stack.length < st.max_stack) :
    ∃ st', st.push pc ix = some st' ∧ SInv st' (nst.push pc ix) := by
  obtain ⟨hsv, hns, hfr⟩ := h
  refine ⟨_, by rw [State.push, if_pos hcap], ?_⟩
  refine ⟨hsv, Nat.zero_le _, ?_⟩
  show FramesInv ((pc, ix, st.nsave) :: st.stack) st.oldsave 0 st.saves
      ((pc, ix, nst.saves) :: nst.stack)
  exact ⟨Nat.zero_le _, rfl, rfl, by simpa [State.applyUndo_nil] using hsv,
    by simpa [State.applyUndo_nil] using hfr⟩

theorem sinv_pop {st : State} {nst : NState} (h : SInv st nst)
    (hne : st.stack ≠ []) :
    ∃ pcix st' nst', st.pop = some (pcix, st') ∧ nst.pop = some (pcix, nst') ∧
      SInv st' nst' := by
  obtain ⟨hsv, hns, hfr⟩ := h
  cases hstk : st.stack with
  | nil => exact absurd hstk hne
  | cons f rest =>
      obtain ⟨pc, ix, fns⟩ := f
      rw [hstk] at hfr
      cases hnstk : nst.stack with
      | nil => rw [hnstk] at hfr; exact absurd hfr (by simp [FramesInv])
      | cons nf nrest =>
          obtain ⟨npc, nix, snap⟩ := nf
          rw [hnstk] at hfr
          obtain ⟨h1, h2, h3, h4, h5⟩ := hfr
          subst h2; subst h3
          refine ⟨(pc, ix),
            { st with
                saves := State.applyUndo (st.oldsave.take st.nsave) st.saves
                oldsave := st.oldsave.drop st.nsave
                stack := rest
                nsave := fns },
            ⟨snap, nrest⟩, ?_, ?_, ?_⟩
          · rw [State.pop, hstk]
          · rw [NState.pop, hnstk]
          · exact ⟨h4, framesInv_ns_le h5, by simpa [h4] using h5⟩

theorem sinv_save {st : State} {nst : NState} (slot val : Nat) (h : SInv st nst) :
    SInv (st.save slot val) (nst.save slot val) := by
  obtain ⟨hsv, hns, hfr⟩ := h
  rw [State.save]
  by_cases ha : (st.oldsave.take st.nsave).any (fun e => e.1 == slot) = true
  · rw [if_pos ha]
    exact ⟨by rw [NState.save]; simp only [hsv], hns,
      framesInv_set_of_logged hfr ha⟩
  · rw [if_neg ha]
    refine ⟨by rw [NState.save]; simp only [hsv], by simp; omega, ?_⟩
    exact framesInv_save_new slot val hfr

/-- `FramesInv` only depends on the undo log, current `nsave` and slot
vector through the reachable snapshots: they may be replaced by any
data that rewinds identically. -/
theorem framesInv_congr_log {stack : List (Nat × Nat × Nat)}
    {old1 old2 : List (Nat × Nat)} {ns1 ns2 : Nat} {sv1 sv2 : List Nat}
    {nstack : List (Nat × Nat × List Nat)}
    (h : FramesInv stack old1 ns1 sv1 nstack)
    (hns : ns2 ≤ old2.length)
    (hleaf : old1.length - ns1 = old2.length - ns2)
    (hsnap : State.applyUndo (old2.take ns2) sv2 = State.applyUndo (old1.take ns1) sv1)
    (hdrop : old2.drop ns2 = old1.drop ns1) :
    FramesInv stack old2 ns2 sv2 nstack := by
  cases stack with
  | nil =>
      cases nstack with
      | nil =>
          have hl : old1.length = ns1 := by simpa [FramesInv] using h
          have : old2.length = ns2 := by omega
          simpa [FramesInv] using this
      | cons nf nrest => exact absurd h (by simp [FramesInv])
  | cons f rest =>
      obtain ⟨pc, ix, fns⟩ := f
      cases nstack with
      | nil => exact absurd h (by simp [FramesInv])
      | cons nf nrest =>
          obtain ⟨npc, nix, snap⟩ := nf
          obtain ⟨h1, h2, h3, h4, h5⟩ := h
          exact ⟨hns, h2, h3, hsnap.trans h4, by rw [hdrop, hsnap, h4]; exact h4 ▸ h5⟩

/-- Unwinding `k + 1` backtrack frames: the undo log splits into the
entries logged since the push of the frame at list position `k` (of size
`ns` plus the stored counts of the frames above it), that frame's own
segment, and the rest. -/
theorem framesInv_drop_succ :
    ∀ (k : Nat) (stack : List (Nat × Nat × Nat)) (old : List (Nat × Nat)) (ns : Nat)
      (saves : List Nat) (nstack : List (Nat × Nat × List Nat)),
      FramesInv stack old ns saves nstack → k < stack.length →
      ns + ((stack.take k).map (fun f => f.2.2)).sum
          + ((stack.get? k).map (fun f => f.2.2)).getD 0 ≤ old.length ∧
      FramesInv (stack.drop (k + 1))
        (old.drop (ns + ((stack.take k).map (fun f => f.2.2)).sum))
        (((stack.get? k).map (fun f => f.2.2)).getD 0)
        (State.applyUndo
          (old.take (ns + ((stack.take k).map (fun f => f.2.2)).sum)) saves)
        (nstack.drop (k + 1)) := by
  intro k
  induction k with
  | zero =>
      intro stack old ns saves nstack h hk
      cases stack with
      | nil => simp at hk
      | cons f rest =>
          obtain ⟨pc, ix, fns⟩ := f
          cases nstack with
          | nil => exact absurd h (by simp [FramesInv])
          | cons nf nrest =>
              obtain ⟨npc, nix, snap⟩ := nf
              obtain ⟨h1, h2, h3, h4, h5⟩ := h
              have hle := framesInv_ns_le h5
              rw [List.length_drop] at hle
              simp only [List.take_zero, List.map_nil, List.sum_nil, Nat.add_zero,
                List.get?_cons_zero, Option.map_some', Option.getD_some,
                List.drop_succ_cons, List.drop_zero]
              exact ⟨by omega, h5⟩
  | succ k ih =>
      intro stack old ns saves nstack h hk
      cases stack with
      | nil => simp at hk
      | cons f rest =>
          obtain ⟨pc, ix, fns⟩ := f
          cases nstack with
          | nil => exact absurd h (by simp [FramesInv])
          | cons nf nrest =>
              obtain ⟨npc, nix, snap⟩ := nf
              obtain ⟨h1, h2, h3, h4, h5⟩ := h
              have hk' : k < rest.length := by simpa using hk
              obtain ⟨ihb, ihf⟩ := ih rest (old.drop ns) fns
                (State.applyUndo (old.take ns) saves) nrest h5 hk'
              rw [List.length_drop] at ihb
              rw [← State.applyUndo_append, ← List.take_add, List.drop_drop] at ihf
              simp only [List.take_succ_cons, List.map_cons, List.sum_cons,
                List.get?_cons_succ, List.drop_succ_cons]
              exact ⟨by omega, ihf⟩

/-- `backtrack_cut` preserves the refinement to the naive model whose cut
simply forgets the frames above height `count`. -/
theorem sinv_cut {st : State} {nst : NState} (c : Nat) (h : SInv st nst)
    (hc : c ≤ st.stack.length) :
    SInv (st.backtrack_cut c) (nst.truncate c) := by
  obtain ⟨hsv, hns, hfr⟩ := h
  have hlen := framesInv_length hfr
  by_cases hceq : st.stack.length = c
  · have ht : nst.truncate c = nst := by
      rw [NState.truncate]
      have h0 : nst.stack.length - c = 0 := by omega
      rw [h0, List.drop_zero]
    rw [State.backtrack_cut, if_pos hceq, ht]
    exact ⟨hsv, hns, hfr⟩
  · have hclt : c < st.stack.length := lt_of_le_of_ne hc (fun hx => hceq hx.symm)
    obtain ⟨k, hk⟩ : ∃ k, st.stack.length - c = k + 1 :=
      ⟨st.stack.length - c - 1, by omega⟩
    have hklt : k < st.stack.length := by omega
    obtain ⟨hb, hf⟩ := framesInv_drop_succ k st.stack st.oldsave st.nsave
      st.saves nst.stack hfr hklt
    have hk2 : nst.stack.length - c = k + 1 := by omega
    simp only [SInv, State.backtrack_cut, if_neg hceq, NState.truncate, hk, hk2,
      Nat.add_sub_cancel]
    set W := st.nsave + ((st.stack.take k).map (fun f => f.2.2)).sum with hW
    set segK := ((st.stack.get? k).map (fun f => f.2.2)).getD 0 with hsegK
    set D := st.oldsave.take W with hD
    set K := (st.oldsave.drop W).take segK with hK
    set F := State.firstOcc (K.map Prod.fst) D.reverse with hF
    have hKlen : K.length = segK := by
      rw [hK, List.length_take, List.length_drop]
      omega
    have hDlen : D.length = W := by
      rw [hD, List.length_take]
      omega
    have htl : (F.reverse ++ K).length = segK + F.length := by
      rw [List.length_append, List.length_reverse, hKlen]
      omega
    have htake : (F.reverse ++ K ++ st.oldsave.drop (W + segK)).take (segK + F.length) =
        F.reverse ++ K := by
      rw [List.append_assoc, ← List.append_assoc]
      exact List.take_left' htl
    have hdrop : (F.reverse ++ K ++ st.oldsave.drop (W + segK)).drop (segK + F.length) =
        st.oldsave.drop (W + segK) := by
      rw [List.append_assoc, ← List.append_assoc]
      exact List.drop_left' htl
    have hsnap : State.applyUndo (F.reverse ++ K) st.saves =
        State.applyUndo K (State.applyUndo D st.saves) := by
      rw [hF, fold_applyUndo, State.applyUndo_append]
    refine ⟨hsv, ?_, ?_⟩
    · simp only [List.length_append, List.length_reverse, List.length_drop, hKlen]
      omega
    · refine framesInv_congr_log hf ?_ ?_ ?_ ?_
      · simp only [List.length_append, List.length_reverse, List.length_drop, hKlen]
        omega
      · simp only [List.length_append, List.length_reverse, List.length_drop, hKlen]
        omega
      · rw [htake, hsnap, hD, hK]
      · rw [hdrop, List.drop_drop]

theorem push_fields {st st' : State} {pc ix : Nat} (h : st.push pc ix = some st') :
    st'.saves = st.saves ∧ st'.max_stack = st.max_stack ∧
    st'.explicit_sp = st.explicit_sp ∧ st'.oldsave = st.oldsave := by
  rw [State.push] at h
  by_cases hlt : st.stack.length < st.max_stack
  · rw [if_pos hlt] at h
    obtain rfl := Option.some.inj h
    exact ⟨rfl, rfl, rfl, rfl⟩
  · rw [if_neg hlt] at h
    cases h

theorem pop_fields {st st' : State} {pcix : Nat × Nat}
    (h : st.pop = some (pcix, st')) :
    st'.max_stack = st.max_stack ∧ st'.saves.length = st.saves.length ∧
    st'.explicit_sp = st.explicit_sp := by
  rw [State.pop] at h
  cases hstk : st.stack with
  | nil => rw [hstk] at h; cases h
  | cons f rest =>
      obtain ⟨pc, ix, fns⟩ := f
      rw [hstk] at h
      obtain ⟨h1, h2⟩ := Prod.mk.injEq .. ▸ Option.some.inj h
      rw [← h2]
      exact ⟨rfl, State.applyUndo_length _ _, rfl⟩

theorem save_max_stack (st : State) (slot val : Nat) :
    (st.save slot val).max_stack = st.max_stack := by
  rw [State.save]; split <;> rfl

theorem save_explicit_sp (st : State) (slot val : Nat) :
    (st.save slot val).explicit_sp = st.explicit_sp := by
  rw [State.save]; split <;> rfl

theorem save_saves_length (st : State) (slot val : Nat) :
    (st.save slot val).saves.length = st.saves.length := by
  rw [State.save]; split <;> simp [List.length_set]

theorem save_stack (st : State) (slot val : Nat) :
    (st.save slot val).stack = st.stack := by
  rw [State.save]; split <;> rfl

/-- Running a valid operation sequence on related states keeps them
related, and the engine never fails as long as the stack budget covers
the sequence length. -/
theorem runOps_sinv :
    ∀ (ops : List Op) (st : State) (nst : NState),
      SInv st nst → ValidOps ops nst.stack.length →
      nst.stack.length + ops.length ≤ st.max_stack →
      ∃ st', runOps ops st = some st' ∧ SInv st' (runNOps ops nst) := by
  intro ops
  induction ops with
  | nil => exact fun st nst h _ _ => ⟨st, rfl, h⟩
  | cons op rest ih =>
      intro st nst h hv hcap
      cases op with
      | push pc ix =>
          have hlen : st.stack.length = nst.stack.length := framesInv_length h.2.2
          have hlt : st.stack.length < st.max_stack := by
            simp only [List.length_cons] at hcap
            omega
          obtain ⟨st', hpush, hinv⟩ := sinv_push pc ix h hlt
          obtain ⟨hsv', hms', _, _⟩ := push_fields hpush
          rw [runOps, hpush, Option.some_bind, runNOps]
          refine ih st' (nst.push pc ix) hinv ?_ ?_
          · simpa [NState.push] using hv
          · simp only [NState.push, List.length_cons, hms']
            simp only [List.length_cons] at hcap
            omega
      | pop =>
          simp only [ValidOps] at hv
          have hlen : st.stack.length = nst.stack.length := framesInv_length h.2.2
          have hne : st.stack ≠ [] := by
            intro hc
            rw [hc] at hlen
            simp at hlen
            omega
          obtain ⟨pcix, st', nst', hpop, hnpop, hinv⟩ := sinv_pop h hne
          obtain ⟨hms', _, _⟩ := pop_fields hpop
          have hnlen : nst'.stack.length + 1 = nst.stack.length := by
            rw [NState.pop] at hnpop
            cases hnstk : nst.stack with
            | nil => rw [hnstk] at hnpop; cases hnpop
            | cons nf nrest =>
                obtain ⟨npc, nix, snap⟩ := nf
                rw [hnstk] at hnpop
                simp only at hnpop
                injection hnpop with hpair
                injection hpair with hpa hpb
                subst hpb
                simp
          rw [runOps, hpop, Option.some_bind, runNOps, hnpop]
          refine ih st' nst' hinv ?_ ?_
          · have : nst'.stack.length = nst.stack.length - 1 := by omega
            rw [this]
            exact hv.2
          · simp only [List.length_cons] at hcap
            omega
      | save slot val =>
          simp only [ValidOps] at hv
          have hinv := sinv_save slot val h
          rw [runOps, runNOps]
          refine ih _ (nst.save slot val) hinv ?_ ?_
          · simpa [NState.save] using hv
          · simp only [NState.save, save_max_stack]
            simp only [List.length_cons] at hcap
            omega

theorem validOps_take :
    ∀ (ops : List Op) (k d : Nat), ValidOps ops d → ValidOps (ops.take k) d := by
  intro ops
  induction ops with
  | nil => intro k d _; simp [ValidOps]
  | cons op rest ih =>
      intro k d hv
      cases k with
      | zero => simp [ValidOps]
      | succ k' =>
          rw [List.take_succ_cons]
          cases op with
          | push pc ix => exact ih k' (d + 1) hv
          | pop => exact ⟨hv.1, ih k' (d - 1) hv.2⟩
          | save slot val => exact ih k' d hv

/-- C1: For every sequence of operations drawn from
`{push(pc, ix), pop() (only on a non-empty stack), save(slot, value)}`
applied simultaneously to the copy-on-write execution state and to the
naive model that copies the full slot vector into every frame on push
and restores it on pop, the values observed by `get(slot)` agree at
every step (every prefix of the sequence), for every slot. -/
theorem C1_cow_refines_naive_model (slots : Nat) (ops : List Op)
    (hvalid : ValidOps ops 0) (hlen : ops.length ≤ MAX_STACK)
    (_hslots : ∀ op ∈ ops, OpSlotOK op slots) :
    ∀ k, ∃ st, runOps (ops.take k) (State.new slots MAX_STACK) = some st ∧
      ∀ slot, st.get slot = (runNOps (ops.take k) (NState.new slots)).get slot := by
  intro k
  have hinv0 : SInv (State.new slots MAX_STACK) (NState.new slots) := by
    refine ⟨rfl, Nat.le_refl 0, ?_⟩
    simp [FramesInv, State.new]
  obtain ⟨st, hrun, hinv⟩ :=
    runOps_sinv (ops.take k) (State.new slots MAX_STACK) (NState.new slots)
      hinv0 (validOps_take ops k 0 hvalid)
      (by
        have h1 : (ops.take k).length ≤ ops.length := by
          rw [List.length_take]; omega
        show (NState.new slots).stack.length + (ops.take k).length ≤ MAX_STACK
        simp only [NState.new]
        simpa using le_trans h1 hlen)
  exact ⟨st, hrun, fun slot => by rw [State.get, NState.get, hinv.1]⟩

/-- C2: `backtrack_cut` keeps the state related to the naive model whose
cut simply discards the frames above height `count`: every slot mutated
after the snapshot (including by instructions whose frames the cut
discards) is still restored to its pre-snapshot value whenever the
engine later backtracks past it.  After the cut the undo log below the
new `nsave` entries is exactly the log the engine had below the frames
the atomic group touched (so `nsave` spans exactly the folded surviving
range), and an immediate pop restores the slot vector to the snapshot of
the frame below. -/
theorem C2_backtrack_cut_rewindability (st : State) (nst : NState) (c : Nat)
    (h : SInv st nst) (hc : c ≤ st.stack.length) :
    SInv (st.backtrack_cut c) (nst.truncate c) ∧
    (st.backtrack_cut c).stack.length = c ∧
    (c < st.stack.length →
      (st.backtrack_cut c).oldsave.drop (st.backtrack_cut c).nsave =
        st.oldsave.drop
          ((st.nsave +
              ((st.stack.take (st.stack.length - c - 1)).map (fun f => f.2.2)).sum) +
            ((st.stack.get? (st.stack.length - c - 1)).map (fun f => f.2.2)).getD 0)) ∧
    (0 < c →
      ∃ pcix st2 nst2, (st.backtrack_cut c).pop = some (pcix, st2) ∧
        (nst.truncate c).pop = some (pcix, nst2) ∧ st2.saves = nst2.saves) := by
  have hs := sinv_cut c h hc
  have hlenc : (st.backtrack_cut c).stack.length = c := by
    by_cases hceq : st.stack.length = c
    · rw [State.backtrack_cut, if_pos hceq]
      exact hceq
    · simp only [State.backtrack_cut, if_neg hceq]
      rw [List.length_drop]
      omega
  refine ⟨hs, hlenc, ?_, ?_⟩
  · intro hlt
    have hceq : ¬ st.stack.length = c := by omega
    obtain ⟨k, hk⟩ : ∃ k, st.stack.length - c = k + 1 :=
      ⟨st.stack.length - c - 1, by omega⟩
    have hklt : k < st.stack.length := by omega
    obtain ⟨hb, _⟩ := framesInv_drop_succ k st.stack st.oldsave st.nsave
      st.saves nst.stack h.2.2 hklt
    simp only [State.backtrack_cut, if_neg hceq, hk, Nat.add_sub_cancel]
    set W := st.nsave + ((st.stack.take k).map (fun f => f.2.2)).sum with hW
    set segK := ((st.stack.get? k).map (fun f => f.2.2)).getD 0 with hsegK
    set D := st.oldsave.take W with hD
    set K := (st.oldsave.drop W).take segK with hK
    set F := State.firstOcc (K.map Prod.fst) D.reverse with hF
    have hKlen : K.length = segK := by
      rw [hK, List.length_take, List.length_drop]
      omega
    have htl : (F.reverse ++ K).length = segK + F.length := by
      rw [List.length_append, List.length_reverse, hKlen]
      omega
    rw [List.append_assoc, ← List.append_assoc]
    exact List.drop_left' htl
  · intro hcpos
    have hne : (st.backtrack_cut c).stack ≠ [] := by
      intro hc0
      rw [hc0] at hlenc
      simp at hlenc
      omega
    obtain ⟨pcix, st2, nst2, h1, h2, hinv2⟩ := sinv_pop hs hne
    exact ⟨pcix, st2, nst2, h1, h2, hinv2.1⟩

theorem any_fst_iff (es : List (Nat × Nat)) (slot : Nat) :
    es.any (fun e => e.1 == slot) = true ↔ slot ∈ es.map Prod.fst := by
  rw [List.any_eq_true]
  simp only [beq_iff_eq, List.mem_map]

theorem applyUndo_restore (added : List (Nat × Nat)) (sv base : List Nat)
    (hlen : sv.length = base.length)
    (hvals : ∀ e ∈ added, e.2 = base.getD e.1 0)
    (huntouched : ∀ j, j ∉ added.map Prod.fst → sv.getD j 0 = base.getD j 0) :
    State.applyUndo added sv = base := by
  apply eq_of_getD
  · rw [State.applyUndo_length]; exact hlen
  · intro j
    by_cases hj : j < sv.length
    · rw [lastVal_getD _ _ _ hj]
      cases hl : lastVal j added with
      | some v =>
          have hmem := lastVal_mem hl
          have hv := hvals _ hmem
          simpa using hv
      | none =>
          have hn := (lastVal_eq_none_iff _ _).mp hl
          simp only [Option.getD_none]
          exact huntouched j hn
    · push_neg at hj
      rw [getD_eq_default _ (by rw [State.applyUndo_length]; exact hj),
        getD_eq_default _ (by omega)]

theorem frameAdded_save {base st : State} {added : List (Nat × Nat)} (slot val : Nat)
    (h : FrameAdded base added st) (hs : slot < base.saves.length) :
    ∃ added', FrameAdded base added' (st.save slot val) ∧
      (∀ x, x ∈ added'.map Prod.fst ↔ x = slot ∨ x ∈ added.map Prod.fst) := by
  obtain ⟨h1, h2, h3, h4, h5, h6, h7⟩ := h
  have htake : st.oldsave.take st.nsave = added := by
    rw [h3, h2]
    exact List.take_left added base.oldsave
  rw [State.save]
  by_cases ha : (st.oldsave.take st.nsave).any (fun e => e.1 == slot) = true
  · rw [if_pos ha]
    have hmem : slot ∈ added.map Prod.fst := by
      rw [htake] at ha
      exact (any_fst_iff _ _).mp ha
    refine ⟨added, ⟨h1, h2, h3, by simpa [List.length_set] using h4, h5, h6, ?_⟩, ?_⟩
    · intro j hj
      have hne : slot ≠ j := fun hc => hj (hc ▸ hmem)
      show (st.saves.set slot val).getD j 0 = base.saves.getD j 0
      rw [getD_set_ne st.saves slot j val hne]
      exact h7 j hj
    · intro x
      constructor
      · intro hx
        exact Or.inr hx
      · rintro (rfl | hx)
        · exact hmem
        · exact hx
  · rw [if_neg ha]
    have hnmem : slot ∉ added.map Prod.fst := by
      rw [htake] at ha
      intro hc
      exact ha ((any_fst_iff _ _).mpr hc)
    refine ⟨(slot, st.saves.getD slot 0) :: added,
      ⟨h1, by simp [h2], by simp [h3], by simpa [List.length_set] using h4, ?_, ?_, ?_⟩, ?_⟩
    · simp only [List.map_cons]
      exact List.nodup_cons.mpr ⟨hnmem, h5⟩
    · intro e he
      rcases List.mem_cons.mp he with rfl | he'
      · exact ⟨h7 slot hnmem, hs⟩
      · exact h6 e he'
    · intro j hj
      simp only [List.map_cons, List.mem_cons] at hj
      push_neg at hj
      show (st.saves.set slot val).getD j 0 = base.saves.getD j 0
      rw [getD_set_ne st.saves slot j val (fun hc => hj.1 hc.symm)]
      exact h7 j hj.2
    · intro x
      simp only [List.map_cons, List.mem_cons]

theorem applySaves_frame :
    ∀ (ops : List (Nat × Nat)) (base st : State) (added : List (Nat × Nat)),
      FrameAdded base added st → (∀ p ∈ ops, p.1 < base.saves.length) →
      ∃ added', FrameAdded base added' (applySaves st ops) ∧
        (∀ x, x ∈ added'.map Prod.fst ↔
          x ∈ added.map Prod.fst ∨ x ∈ ops.map Prod.fst) := by
  intro ops
  induction ops with
  | nil =>
      intro base st added h _
      exact ⟨added, h, fun x => by simp⟩
  | cons p rest ih =>
      intro base st added h hp
      obtain ⟨added1, h1, hmem1⟩ :=
        frameAdded_save p.1 p.2 h (hp p (List.mem_cons_self _ _))
      obtain ⟨added2, h2, hmem2⟩ :=
        ih base (st.save p.1 p.2) added1 h1 (fun q hq => hp q (List.mem_cons_of_mem _ hq))
      refine ⟨added2, h2, ?_⟩
      intro x
      rw [hmem2 x, hmem1 x]
      simp only [List.map_cons, List.mem_cons]
      tauto

/-- C3: within one frame (after a `push`), any sequence of `save`s leaves
exactly one undo-log entry per touched slot in the current frame's
segment, holding the value the slot had before the first of those saves
(= at frame entry), and `pop` restores exactly the pre-push state. -/
theorem C3_undo_log_first_write (st0 : State) (pc ix : Nat) (ops : List (Nat × Nat))
    (hcap : st0.stack.length < st0.max_stack)
    (hsl : ∀ p ∈ ops, p.1 < st0.saves.length) :
    ∃ st1, st0.push pc ix = some st1 ∧
      (∀ s ∈ ops.map Prod.fst,
        (((applySaves st1 ops).oldsave.take (applySaves st1 ops).nsave).map
            Prod.fst).count s = 1 ∧
        ∀ v, (s, v) ∈ (applySaves st1 ops).oldsave.take (applySaves st1 ops).nsave →
          v = st0.saves.getD s 0) ∧
      ∃ st3, (applySaves st1 ops).pop = some ((pc, ix), st3) ∧
        st3.saves = st0.saves ∧ st3.stack = st0.stack ∧
        st3.nsave = st0.nsave ∧ st3.oldsave = st0.oldsave := by
  have hpush : st0.push pc ix =
      some { st0 with stack := (pc, ix, st0.nsave) :: st0.stack, nsave := 0 } := by
    rw [State.push, if_pos hcap]
  set st1 : State :=
    { st0 with stack := (pc, ix, st0.nsave) :: st0.stack, nsave := 0 } with hst1
  have hbase : FrameAdded st1 [] st1 := by
    refine ⟨rfl, rfl, rfl, rfl, List.nodup_nil, ?_, ?_⟩
    · intro e he
      simp at he
    · intro j _
      rfl
  obtain ⟨added, hFA, hmem⟩ := applySaves_frame ops st1 st1 [] hbase hsl
  obtain ⟨f1, f2, f3, f4, f5, f6, f7⟩ := hFA
  set st2 := applySaves st1 ops with hst2
  have htake : st2.oldsave.take st2.nsave = added := by
    rw [f3, f2]
    exact List.take_left added st1.oldsave
  have hmem' : ∀ x, x ∈ added.map Prod.fst ↔ x ∈ ops.map Prod.fst := by
    intro x
    rw [hmem x]
    simp
  refine ⟨st1, hpush, ?_, ?_⟩
  · intro s hs
    constructor
    · rw [htake]
      exact List.count_eq_one_of_mem f5 ((hmem' s).mpr hs)
    · intro v hv
      rw [htake] at hv
      exact (f6 (s, v) hv).1
  · have hstk2 : st2.stack = (pc, ix, st0.nsave) :: st0.stack := f1
    have hpop : st2.pop = some ((pc, ix),
        { st2 with
            saves := State.applyUndo (st2.oldsave.take st2.nsave) st2.saves
            oldsave := st2.oldsave.drop st2.nsave
            stack := st0.stack
            nsave := st0.nsave }) := by
      simp only [State.pop, hstk2]
    refine ⟨_, hpop, ?_, rfl, rfl, ?_⟩
    · show State.applyUndo (st2.oldsave.take st2.nsave) st2.saves = st0.saves
      rw [htake]
      refine applyUndo_restore added st2.saves st0.saves f4 ?_ ?_
      · intro e he
        exact (f6 e he).1
      · intro j hj
        exact f7 j hj
    · show st2.oldsave.drop st2.nsave = st0.oldsave
      rw [f3, f2]
      exact List.drop_left added st1.oldsave

/-- Witness for C1 at a concrete operation sequence. -/
theorem C1_cow_refines_naive_model_witness :
    ∃ st, runOps ([Op.push 0 0, Op.save 0 5, Op.pop].take 3)
        (State.new 2 MAX_STACK) = some st ∧
      ∀ slot, st.get slot =
        (runNOps ([Op.push 0 0, Op.save 0 5, Op.pop].take 3) (NState.new 2)).get slot :=
  C1_cow_refines_naive_model 2 [Op.push 0 0, Op.save 0 5, Op.pop]
    (by simp [ValidOps]) (by decide)
    (by
      intro op hop
      simp only [List.mem_cons, List.not_mem_nil, or_false] at hop
      rcases hop with rfl | rfl | rfl <;> simp [OpSlotOK])
    3

/-- Witness for C2 at a concrete state (two frames, one atomic cut to
height 1). -/
theorem C2_backtrack_cut_rewindability_witness :
    (SInv (State.backtrack_cut
        ⟨[3, 4], [(20, 20, 1), (10, 10, 1)], [(1, 9), (0, 2), (0, 1), (0, 7)], 2, 2, 5⟩ 1)
      (NState.truncate ⟨[3, 4], [(20, 20, [2, 9]), (10, 10, [1, 9])]⟩ 1) ∧
     (State.backtrack_cut
        ⟨[3, 4], [(20, 20, 1), (10, 10, 1)], [(1, 9), (0, 2), (0, 1), (0, 7)], 2, 2, 5⟩
        1).stack.length = 1 ∧
     (1 < ([(20, 20, 1), (10, 10, 1)] : List (Nat × Nat × Nat)).length →
       (State.backtrack_cut
          ⟨[3, 4], [(20, 20, 1), (10, 10, 1)], [(1, 9), (0, 2), (0, 1), (0, 7)], 2, 2, 5⟩
          1).oldsave.drop
          (State.backtrack_cut
            ⟨[3, 4], [(20, 20, 1), (10, 10, 1)], [(1, 9), (0, 2), (0, 1), (0, 7)], 2, 2, 5⟩
            1).nsave =
        ([(1, 9), (0, 2), (0, 1), (0, 7)] : List (Nat × Nat)).drop
          ((2 + ((([(20, 20, 1), (10, 10, 1)] : List (Nat × Nat × Nat)).take
                (([(20, 20, 1), (10, 10, 1)] : List (Nat × Nat × Nat)).length - 1 - 1)).map
              (fun f => f.2.2)).sum) +
            ((([(20, 20, 1), (10, 10, 1)] : List (Nat × Nat × Nat)).get?
                (([(20, 20, 1), (10, 10, 1)] : List (Nat × Nat × Nat)).length - 1 - 1)).map
              (fun f => f.2.2)).getD 0)) ∧
     (0 < 1 →
       ∃ pcix st2 nst2,
         (State.backtrack_cut
            ⟨[3, 4], [(20, 20, 1), (10, 10, 1)], [(1, 9), (0, 2), (0, 1), (0, 7)], 2, 2, 5⟩
            1).pop = some (pcix, st2) ∧
         (NState.truncate ⟨[3, 4], [(20, 20, [2, 9]), (10, 10, [1, 9])]⟩ 1).pop =
           some (pcix, nst2) ∧ st2.saves = nst2.saves)) :=
  C2_backtrack_cut_rewindability
    ⟨[3, 4], [(20, 20, 1), (10, 10, 1)], [(1, 9), (0, 2), (0, 1), (0, 7)], 2, 2, 5⟩
    ⟨[3, 4], [(20, 20, [2, 9]), (10, 10, [1, 9])]⟩ 1
    (by
      refine ⟨rfl, by decide, ?_⟩
      simp [FramesInv, State.applyUndo])
    (by decide)

/-- Witness for C3 at a concrete frame of saves. -/
theorem C3_undo_log_first_write_witness :
    ∃ st1, (State.new 2 5).push 7 3 = some st1 ∧
      (∀ s ∈ ([(0, 10), (0, 20), (1, 30)] : List (Nat × Nat)).map Prod.fst,
        (((applySaves st1 [(0, 10), (0, 20), (1, 30)]).oldsave.take
            (applySaves st1 [(0, 10), (0, 20), (1, 30)]).nsave).map Prod.fst).count s = 1 ∧
        ∀ v, (s, v) ∈ (applySaves st1 [(0, 10), (0, 20), (1, 30)]).oldsave.take
            (applySaves st1 [(0, 10), (0, 20), (1, 30)]).nsave →
          v = (State.new 2 5).saves.getD s 0) ∧
      ∃ st3, (applySaves st1 [(0, 10), (0, 20), (1, 30)]).pop = some ((7, 3), st3) ∧
        st3.saves = (State.new 2 5).saves ∧ st3.stack = (State.new 2 5).stack ∧
        st3.nsave = (State.new 2 5).nsave ∧ st3.oldsave = (State.new 2 5).oldsave :=
  C3_undo_log_first_write (State.new 2 5) 7 3 [(0, 10), (0, 20), (1, 30)]
    (by decide) (by decide)

/-! ### Dispatcher lemmas -/

theorem pop_eq_none_iff (st : State) : st.pop = none ↔ st.stack = [] := by
  rw [State.pop]
  cases hstk : st.stack with
  | nil => simp
  | cons f rest =>
      obtain ⟨pc, ix, fns⟩ := f
      simp

theorem step_overflow_inv {u : Utf8Fns} {prog : Prog} {s : List Nat}
    {pc ix : Nat} {st : State}
    (h : step u prog s pc ix st = StepOut.res RunResult.overflow) :
    execInsn u prog s pc ix st = ExecOut.oflow := by
  rw [step] at h
  cases hex : execInsn u prog s pc ix st <;> simp only [hex] at h
  case next pc' ix' st' => exact StepOut.noConfusion h
  case done sv => exact RunResult.noConfusion (StepOut.res.inj h)
  case oflow => rfl
  case panic => exact StepOut.noConfusion h
  case fail st' =>
    cases hp : st'.pop with
    | none =>
        simp only [hp] at h
        exact RunResult.noConfusion (StepOut.res.inj h)
    | some p =>
        obtain ⟨⟨npc, nix⟩, st''⟩ := p
        simp only [hp] at h
        exact StepOut.noConfusion h

theorem step_noMatch_iff (u : Utf8Fns) (prog : Prog) (s : List Nat)
    (pc ix : Nat) (st : State) :
    step u prog s pc ix st = StepOut.res RunResult.noMatch ↔
      ∃ st', execInsn u prog s pc ix st = ExecOut.fail st' ∧ st'.stack = [] := by
  rw [step]
  cases hex : execInsn u prog s pc ix st <;> simp only [hex]
  case next pc' ix' st' =>
      constructor
      · intro hc; exact StepOut.noConfusion hc
      · rintro ⟨st2, h2, _⟩; exact ExecOut.noConfusion h2
  case done sv =>
      constructor
      · intro hc; exact RunResult.noConfusion (StepOut.res.inj hc)
      · rintro ⟨st2, h2, _⟩; exact ExecOut.noConfusion h2
  case oflow =>
      constructor
      · intro hc; exact RunResult.noConfusion (StepOut.res.inj hc)
      · rintro ⟨st2, h2, _⟩; exact ExecOut.noConfusion h2
  case panic =>
      constructor
      · intro hc; exact StepOut.noConfusion hc
      · rintro ⟨st2, h2, _⟩; exact ExecOut.noConfusion h2
  case fail st' =>
      cases hp : st'.pop with
      | none =>
          simp only [hp, true_iff]
          exact ⟨st', rfl, (pop_eq_none_iff st').mp hp⟩
      | some p =>
          obtain ⟨⟨npc, nix⟩, st''⟩ := p
          simp only [hp]
          constructor
          · intro hc; exact StepOut.noConfusion hc
          · rintro ⟨st2, h2, hstk⟩
            have hse := ExecOut.fail.inj h2
            subst hse
            rw [(pop_eq_none_iff st').mpr hstk] at hp
            exact Option.noConfusion hp

theorem runDelegate_ne_done {pc ix1 : Nat} {s : List Nat} {st : State} {re : Rgx}
    {sg eg : Nat} {sv : List Nat}
    (h : runDelegate pc ix1 s st re sg eg = ExecOut.done sv) : False := by
  rw [runDelegate] at h
  repeat' split at h
  all_goals exact ExecOut.noConfusion h

theorem runDelegate_ne_oflow {pc ix1 : Nat} {s : List Nat} {st : State} {re : Rgx}
    {sg eg : Nat} (h : runDelegate pc ix1 s st re sg eg = ExecOut.oflow) : False := by
  rw [runDelegate] at h
  repeat' split at h
  all_goals exact ExecOut.noConfusion h

theorem execInsn_done_inv {u : Utf8Fns} {prog : Prog} {s : List Nat}
    {pc ix : Nat} {st : State} {sv : List Nat}
    (h : execInsn u prog s pc ix st = ExecOut.done sv) :
    prog.body.get? pc = some Insn.insnEnd ∧ sv = st.saves := by
  rw [execInsn] at h
  repeat' split at h
  all_goals (try (exfalso; exact ExecOut.noConfusion h))
  all_goals (try (exfalso; exact runDelegate_ne_done h))
  all_goals simp_all

theorem execInsn_oflow_iff (u : Utf8Fns) (prog : Prog) (s : List Nat)
    (pc ix : Nat) (st : State) (insn : Insn)
    (hfetch : prog.body.get? pc = some insn) :
    execInsn u prog s pc ix st = ExecOut.oflow ↔
      pushesNow insn st ix ∧ st.max_stack ≤ st.stack.length := by
  cases insn <;> simp only [execInsn, hfetch, pushesNow]
  case split x y =>
      rw [State.push]
      by_cases hlt : st.stack.length < st.max_stack
      · rw [if_pos hlt]
        constructor
        · intro hc; exact ExecOut.noConfusion hc
        · rintro ⟨_, hle⟩; exfalso; omega
      · rw [if_neg hlt]
        exact ⟨fun _ => ⟨trivial, by omega⟩, fun _ => rfl⟩
  case repeatGr lo hi next rep =>
      by_cases h1 : st.get rep = hi
      · rw [if_pos h1]
        constructor
        · intro hc; exact ExecOut.noConfusion hc
        · rintro ⟨⟨hne, _⟩, _⟩; exact absurd h1 hne
      · rw [if_neg h1]
        by_cases h2 : lo ≤ st.get rep
        · rw [if_pos h2, State.push, save_stack, save_max_stack]
          by_cases hlt : st.stack.length < st.max_stack
          · rw [if_pos hlt]
            constructor
            · intro hc; exact ExecOut.noConfusion hc
            · rintro ⟨_, hle⟩; exfalso; omega
          · rw [if_neg hlt]
            exact ⟨fun _ => ⟨⟨h1, h2⟩, by omega⟩, fun _ => rfl⟩
        · rw [if_neg h2]
          constructor
          · intro hc; exact ExecOut.noConfusion hc
          · rintro ⟨⟨_, hle⟩, _⟩; exact absurd hle h2
  case repeatNg lo hi next rep =>
      by_cases h1 : st.get rep = hi
      · rw [if_pos h1]
        constructor
        · intro hc; exact ExecOut.noConfusion hc
        · rintro ⟨⟨hne, _⟩, _⟩; exact absurd h1 hne
      · rw [if_neg h1]
        by_cases h2 : lo ≤ st.get rep
        · rw [if_pos h2, State.push, save_stack, save_max_stack]
          by_cases hlt : st.stack.length < st.max_stack
          · rw [if_pos hlt]
            constructor
            · intro hc; exact ExecOut.noConfusion hc
            · rintro ⟨_, hle⟩; exfalso; omega
          · rw [if_neg hlt]
            exact ⟨fun _ => ⟨⟨h1, h2⟩, by omega⟩, fun _ => rfl⟩
        · rw [if_neg h2]
          constructor
          · intro hc; exact ExecOut.noConfusion hc
          · rintro ⟨⟨_, hle⟩, _⟩; exact absurd hle h2
  case repeatEpsilonGr lo next rep check =>
      by_cases h1 : lo < st.get rep ∧ st.get check = ix
      · rw [if_pos h1]
        constructor
        · intro hc; exact ExecOut.noConfusion hc
        · rintro ⟨⟨hne, _⟩, _⟩; exact absurd h1 hne
      · rw [if_neg h1]
        by_cases h2 : lo ≤ st.get rep
        · rw [if_pos h2, State.push, save_stack, save_max_stack, save_stack,
            save_max_stack]
          by_cases hlt : st.stack.length < st.max_stack
          · rw [if_pos hlt]
            constructor
            · intro hc; exact ExecOut.noConfusion hc
            · rintro ⟨_, hle⟩; exfalso; omega
          · rw [if_neg hlt]
            exact ⟨fun _ => ⟨⟨h1, h2⟩, by omega⟩, fun _ => rfl⟩
        · rw [if_neg h2]
          constructor
          · intro hc; exact ExecOut.noConfusion hc
          · rintro ⟨⟨_, hle⟩, _⟩; exact absurd hle h2
  case repeatEpsilonNg lo next rep check =>
      by_cases h1 : lo < st.get rep ∧ st.get check = ix
      · rw [if_pos h1]
        constructor
        · intro hc; exact ExecOut.noConfusion hc
        · rintro ⟨⟨hne, _⟩, _⟩; exact absurd h1 hne
      · rw [if_neg h1]
        by_cases h2 : lo ≤ st.get rep
        · rw [if_pos h2, State.push, save_stack, save_max_stack, save_stack,
            save_max_stack]
          by_cases hlt : st.stack.length < st.max_stack
          · rw [if_pos hlt]
            constructor
            · intro hc; exact ExecOut.noConfusion hc
            · rintro ⟨_, hle⟩; exfalso; omega
          · rw [if_neg hlt]
            exact ⟨fun _ => ⟨⟨h1, h2⟩, by omega⟩, fun _ => rfl⟩
        · rw [if_neg h2]
          constructor
          · intro hc; exact ExecOut.noConfusion hc
          · rintro ⟨⟨_, hle⟩, _⟩; exact absurd hle h2
  all_goals
    simp only [false_and, iff_false]
    intro h
    (repeat' split at h) <;>
      first
        | exact ExecOut.noConfusion h
        | exact runDelegate_ne_oflow h

theorem runFuel_overflow_inv {u : Utf8Fns} {prog : Prog} {s : List Nat} :
    ∀ (fuel pc ix : Nat) (st : State),
      runFuel u prog s fuel pc ix st = Outcome.res RunResult.overflow →
      ∃ pc' ix' st', execInsn u prog s pc' ix' st' = ExecOut.oflow := by
  intro fuel
  induction fuel with
  | zero =>
      intro pc ix st h
      rw [runFuel] at h
      exact Outcome.noConfusion h
  | succ n ih =>
      intro pc ix st h
      rw [runFuel] at h
      cases hstep : step u prog s pc ix st <;> simp only [hstep] at h
      case cont pc' ix' st' => exact ih pc' ix' st' h
      case res r =>
          obtain rfl := Outcome.res.inj h
          exact ⟨pc, ix, st, step_overflow_inv hstep⟩
      case panic => exact Outcome.noConfusion h

/-- C4: each dispatch step ends in exactly one of: continuation, a match
(`Ok(Some(saves))`, only from an `End` instruction with the current slot
vector), clean no-match (`Ok(None)`, exactly when an instruction fails
with an empty backtrack stack), stack overflow (exactly when the
dispatched instruction attempts a `push` while the stack already holds
`max_stack` frames), or a modeled Rust panic; a fuelled run returning
the overflow error dispatched such an overflowing push, and `run` starts
from a fresh state with `max_stack = MAX_STACK` (1,000,000). -/
theorem C4_run_three_outcomes (u : Utf8Fns) (prog : Prog) (s : List Nat) :
    (∀ pc ix st,
      (∃ pc' ix' st', step u prog s pc ix st = StepOut.cont pc' ix' st') ∨
      (∃ sv, step u prog s pc ix st = StepOut.res (RunResult.matched sv)) ∨
      step u prog s pc ix st = StepOut.res RunResult.noMatch ∨
      step u prog s pc ix st = StepOut.res RunResult.overflow ∨
      step u prog s pc ix st = StepOut.panic) ∧
    (∀ pc ix st sv, execInsn u prog s pc ix st = ExecOut.done sv →
      prog.body.get? pc = some Insn.insnEnd ∧ sv = st.saves) ∧
    (∀ pc ix st, step u prog s pc ix st = StepOut.res RunResult.noMatch ↔
      ∃ st', execInsn u prog s pc ix st = ExecOut.fail st' ∧ st'.stack = []) ∧
    (∀ pc ix st insn, prog.body.get? pc = some insn →
      (execInsn u prog s pc ix st = ExecOut.oflow ↔
        pushesNow insn st ix ∧ st.max_stack ≤ st.stack.length)) ∧
    (∀ fuel pc ix st, runFuel u prog s fuel pc ix st = Outcome.res RunResult.overflow →
      ∃ pc' ix' st', execInsn u prog s pc' ix' st' = ExecOut.oflow) ∧
    (∀ pos fuel, run u prog s pos fuel =
      runFuel u prog s fuel 0 pos (State.new prog.n_saves MAX_STACK)) := by
  refine ⟨?_, ?_, ?_, ?_, ?_, ?_⟩
  · intro pc ix st
    cases hex : execInsn u prog s pc ix st <;> simp only [step, hex]
    case next a b c => exact Or.inl ⟨a, b, c, rfl⟩
    case done sv => exact Or.inr (Or.inl ⟨sv, rfl⟩)
    case oflow => exact Or.inr (Or.inr (Or.inr (Or.inl trivial)))
    case panic => exact Or.inr (Or.inr (Or.inr (Or.inr trivial)))
    case fail st' =>
        cases hp : st'.pop with
        | none => simp only [hp]; exact Or.inr (Or.inr (Or.inl trivial))
        | some p =>
            obtain ⟨⟨a, b⟩, c⟩ := p
            simp only [hp]
            exact Or.inl ⟨a, b, c, rfl⟩
  · intro pc ix st sv h
    exact execInsn_done_inv h
  · intro pc ix st
    exact step_noMatch_iff u prog s pc ix st
  · intro pc ix st insn hfetch
    exact execInsn_oflow_iff u prog s pc ix st insn hfetch
  · exact runFuel_overflow_inv
  · intro pos fuel
    rfl

theorem get_save_ne (st : State) (slot val j : Nat) (h : j ≠ slot) :
    (st.save slot val).get j = st.get j := by
  rw [State.save]
  split <;>
    · show (st.saves.set slot val).getD j 0 = st.saves.getD j 0
      exact getD_set_ne st.saves slot j val (fun hc => h hc.symm)

theorem get_save_self (st : State) (slot val : Nat) (h : slot < st.saves.length) :
    (st.save slot val).get slot = val := by
  rw [State.save]
  split <;>
    · show (st.saves.set slot val).getD slot 0 = val
      exact getD_set_self st.saves slot val h

theorem getD_append_left (l l2 : List Nat) (j : Nat) (h : j < l.length) :
    (l ++ l2).getD j 0 = l.getD j 0 := by
  induction l generalizing j with
  | nil => simp at h
  | cons a t ih =>
      cases j with
      | zero => simp
      | succ j' => simpa using ih j' (by simpa using h)

theorem getD_append_right (l l2 : List Nat) (i : Nat) :
    (l ++ l2).getD (l.length + i) 0 = l2.getD i 0 := by
  induction l with
  | nil => simp
  | cons a t ih => simpa [Nat.succ_add] using ih

theorem getD_append_at (l l2 : List Nat) (j i : Nat) (h : j = l.length + i) :
    (l ++ l2).getD j 0 = l2.getD i 0 := by
  subst h
  exact getD_append_right l l2 i

/-- The pop loop of `FailNegativeLookAround` removes exactly the frames
above the one the look-around's `Split` pushed (resume counter =
`target`), provided none of those frames resumes at `target`. -/
theorem popUntilPc_spec :
    ∀ (upper : List (Nat × Nat × Nat)) (st : State) (target jx ns : Nat)
      (lower : List (Nat × Nat × Nat)),
      st.stack = upper ++ (target, jx, ns) :: lower →
      (∀ f ∈ upper, f.1 ≠ target) →
      ∃ st', popUntilPc target st.stack.length st = some st' ∧
        st'.stack = lower ∧ st'.nsave = ns := by
  intro upper
  induction upper with
  | nil =>
      intro st target jx ns lower hstk hup
      have hlen : st.stack.length = lower.length + 1 := by rw [hstk]; simp
      rw [hlen]
      refine ⟨{ st with
          saves := State.applyUndo (st.oldsave.take st.nsave) st.saves
          oldsave := st.oldsave.drop st.nsave
          stack := lower
          nsave := ns }, ?_, rfl, rfl⟩
      simp only [popUntilPc, State.pop, hstk]
      simp
  | cons f up' ih =>
      intro st target jx ns lower hstk hup
      obtain ⟨fpc, fix, fns⟩ := f
      have hfne : fpc ≠ target := hup (fpc, fix, fns) (List.mem_cons_self _ _)
      have hpop : st.pop = some ((fpc, fix),
          { st with
              saves := State.applyUndo (st.oldsave.take st.nsave) st.saves
              oldsave := st.oldsave.drop st.nsave
              stack := up' ++ (target, jx, ns) :: lower
              nsave := fns }) := by
        simp only [State.pop, hstk]
        rfl
      set st2 : State :=
        { st with
            saves := State.applyUndo (st.oldsave.take st.nsave) st.saves
            oldsave := st.oldsave.drop st.nsave
            stack := up' ++ (target, jx, ns) :: lower
            nsave := fns } with hst2
      have hlen : st.stack.length = st2.stack.length + 1 := by
        rw [hstk]
        simp
      obtain ⟨st', hrec, hl, hn⟩ := ih st2 target jx ns lower rfl
        (fun g hg => hup g (List.mem_cons_of_mem _ hg))
      refine ⟨st', ?_, hl, hn⟩
      rw [hlen]
      simp only [popUntilPc, hpop, if_neg hfne]
      exact hrec

/-- C5: when `FailNegativeLookAround` at `pc` executes with the frame
pushed by the look-around's `Split` (resume counter `pc + 1`) on the
stack, and no frame pushed above it resumes at `pc + 1`, the instruction
pops exactly down past that frame and then takes the local-failure
branch, so the stack depth equals the depth immediately before the
`Split` executed (= the frames below the `Split`'s frame). -/
theorem C5_negative_lookaround_no_spurious_frames (u : Utf8Fns) (prog : Prog)
    (s : List Nat) (pc ix jx ns : Nat) (st : State)
    (upper lower : List (Nat × Nat × Nat))
    (hfetch : prog.body.get? pc = some Insn.failNegativeLookAround)
    (hstk : st.stack = upper ++ (pc + 1, jx, ns) :: lower)
    (hupper : ∀ f ∈ upper, f.1 ≠ pc + 1) :
    ∃ st', execInsn u prog s pc ix st = ExecOut.fail st' ∧
      st'.stack.length = lower.length := by
  obtain ⟨st', hpop, hl, _⟩ := popUntilPc_spec upper st (pc + 1) jx ns lower hstk hupper
  refine ⟨st', ?_, by rw [hl]⟩
  simp only [execInsn, hfetch, hpop]

/-- Witness for C5: one body frame above the `Split` frame. -/
theorem C5_negative_lookaround_no_spurious_frames_witness :
    ∃ st', execInsn ⟨fun _ => 1, fun _ ix => ix - 1⟩
        ⟨[Insn.failNegativeLookAround, Insn.insnEnd], 0⟩ [] 0 0
        ⟨[], [(5, 0, 0), (1, 2, 3), (9, 9, 9)], [], 0, 0, 10⟩ = ExecOut.fail st' ∧
      st'.stack.length = ([(9, 9, 9)] : List (Nat × Nat × Nat)).length :=
  C5_negative_lookaround_no_spurious_frames ⟨fun _ => 1, fun _ ix => ix - 1⟩
    ⟨[Insn.failNegativeLookAround, Insn.insnEnd], 0⟩ [] 0 0 2 3
    ⟨[], [(5, 0, 0), (1, 2, 3), (9, 9, 9)], [], 0, 0, 10⟩
    [(5, 0, 0)] [(9, 9, 9)] rfl rfl (by decide)

/-- C6 counterexample: the claim asserts that in the non-failing case a
`RepeatEpsilonGr` always "stores ix into the check slot".  With
`lo = 1` and counter `c = 0 < lo` the source bumps the counter but does
not touch the check slot: here the check slot (slot 1) still holds 5,
not `ix = 0`, after the instruction. -/
theorem C6_repeat_epsilon_counterexample :
    ¬ (∀ pc' ix' st',
        execInsn ⟨fun _ => 1, fun _ ix => ix - 1⟩
            ⟨[Insn.repeatEpsilonGr 1 3 0 1], 2⟩ [] 0 0
            ⟨[0, 5], [], [], 0, 2, 10⟩ = ExecOut.next pc' ix' st' →
        st'.get 1 = 0) := by
  intro h
  have h2 := h 1 0 ⟨[1, 5], [], [(0, 0)], 1, 2, 10⟩ rfl
  rw [State.get] at h2
  simp at h2

/-- C6 amended: `RepeatEpsilon{Gr,Ng}` with counter `c = get(repeat)`
fails iff `c > lo` and `get(check) = ix`; otherwise it sets the counter
to `c + 1` and, only when `c ≥ lo`, stores `ix` into the check slot and
branches as in the counted case (greedy: push `(next, ix)` and fall
through; non-greedy: push `(pc+1, ix)` and jump to `next`); when
`c < lo` the check slot is left unchanged and no frame is pushed. -/
theorem C6_repeat_epsilon_semantics (u : Utf8Fns) (prog : Prog) (s : List Nat)
    (pc ix : Nat) (st : State) (lo next rep check : Nat)
    (hcap : st.stack.length < st.max_stack)
    (hrep : rep < st.saves.length) (hchk : check < st.saves.length)
    (hne : rep ≠ check) :
    (prog.body.get? pc = some (Insn.repeatEpsilonGr lo next rep check) →
      ((∃ st', execInsn u prog s pc ix st = ExecOut.fail st') ↔
        lo < st.get rep ∧ st.get check = ix) ∧
      (¬(lo < st.get rep ∧ st.get check = ix) → lo ≤ st.get rep →
        ∃ st3, ((st.save rep (st.get rep + 1)).save check ix).push next ix = some st3 ∧
          execInsn u prog s pc ix st = ExecOut.next (pc + 1) ix st3 ∧
          st3.get rep = st.get rep + 1 ∧ st3.get check = ix) ∧
      (¬(lo < st.get rep ∧ st.get check = ix) → st.get rep < lo →
        execInsn u prog s pc ix st =
          ExecOut.next (pc + 1) ix (st.save rep (st.get rep + 1)) ∧
        (st.save rep (st.get rep + 1)).get rep = st.get rep + 1 ∧
        (st.save rep (st.get rep + 1)).get check = st.get check ∧
        (st.save rep (st.get rep + 1)).stack = st.stack)) ∧
    (prog.body.get? pc = some (Insn.repeatEpsilonNg lo next rep check) →
      ((∃ st', execInsn u prog s pc ix st = ExecOut.fail st') ↔
        lo < st.get rep ∧ st.get check = ix) ∧
      (¬(lo < st.get rep ∧ st.get check = ix) → lo ≤ st.get rep →
        ∃ st3, ((st.save rep (st.get rep + 1)).save check ix).push (pc + 1) ix = some st3 ∧
          execInsn u prog s pc ix st = ExecOut.next next ix st3 ∧
          st3.get rep = st.get rep + 1 ∧ st3.get check = ix) ∧
      (¬(lo < st.get rep ∧ st.get check = ix) → st.get rep < lo →
        execInsn u prog s pc ix st =
          ExecOut.next (pc + 1) ix (st.save rep (st.get rep + 1)) ∧
        (st.save rep (st.get rep + 1)).get rep = st.get rep + 1 ∧
        (st.save rep (st.get rep + 1)).get check = st.get check ∧
        (st.save rep (st.get rep + 1)).stack = st.stack)) := by
  have hlen1 : (st.save rep (st.get rep + 1)).saves.length = st.saves.length :=
    save_saves_length st rep (st.get rep + 1)
  have hlen2 : ((st.save rep (st.get rep + 1)).save check ix).saves.length =
      st.saves.length := by
    rw [save_saves_length, hlen1]
  have hstk2 : ((st.save rep (st.get rep + 1)).save check ix).stack = st.stack := by
    rw [save_stack, save_stack]
  have hms2 : ((st.save rep (st.get rep + 1)).save check ix).max_stack =
      st.max_stack := by
    rw [save_max_stack, save_max_stack]
  have hget_rep : ((st.save rep (st.get rep + 1)).save check ix).get rep =
      st.get rep + 1 := by
    rw [get_save_ne _ _ _ _ hne, get_save_self _ _ _ hrep]
  have hget_chk : ((st.save rep (st.get rep + 1)).save check ix).get check = ix :=
    get_save_self _ _ _ (by rw [hlen1]; exact hchk)
  constructor
  · intro hfetch
    refine ⟨?_, ?_, ?_⟩
    · simp only [execInsn, hfetch]
      by_cases hg : lo < st.get rep ∧ st.get check = ix
      · rw [if_pos hg]
        exact ⟨fun _ => hg, fun _ => ⟨st, rfl⟩⟩
      · rw [if_neg hg]
        constructor
        · intro hfail
          exfalso
          obtain ⟨st', hst'⟩ := hfail
          by_cases hle : lo ≤ st.get rep
          · rw [if_pos hle] at hst'
            rw [State.push, hstk2, hms2, if_pos hcap] at hst'
            exact ExecOut.noConfusion hst'
          · rw [if_neg hle] at hst'
            exact ExecOut.noConfusion hst'
        · intro hg'; exact absurd hg' hg
    · intro hg hle
      have hpush : ((st.save rep (st.get rep + 1)).save check ix).push next ix =
          some { (st.save rep (st.get rep + 1)).save check ix with
              stack := (next, ix,
                ((st.save rep (st.get rep + 1)).save check ix).nsave) ::
                ((st.save rep (st.get rep + 1)).save check ix).stack
              nsave := 0 } := by
        rw [State.push]
        simp only [hstk2, hms2]
        rw [if_pos hcap]
      refine ⟨_, hpush, ?_, ?_, ?_⟩
      · simp only [execInsn, hfetch, if_neg hg, if_pos hle, hpush]
      · show State.get _ rep = st.get rep + 1
        rw [State.get]
        show (((st.save rep (st.get rep + 1)).save check ix).saves).getD rep 0 =
          st.get rep + 1
        exact hget_rep
      · show State.get _ check = ix
        rw [State.get]
        show (((st.save rep (st.get rep + 1)).save check ix).saves).getD check 0 = ix
        exact hget_chk
    · intro hg hlt
      refine ⟨?_, get_save_self _ _ _ hrep, get_save_ne _ _ _ _ (Ne.symm hne),
        save_stack _ _ _⟩
      simp only [execInsn, hfetch, if_neg hg, if_neg (by omega : ¬ lo ≤ st.get rep)]
  · intro hfetch
    refine ⟨?_, ?_, ?_⟩
    · simp only [execInsn, hfetch]
      by_cases hg : lo < st.get rep ∧ st.get check = ix
      · rw [if_pos hg]
        exact ⟨fun _ => hg, fun _ => ⟨st, rfl⟩⟩
      · rw [if_neg hg]
        constructor
        · intro hfail
          exfalso
          obtain ⟨st', hst'⟩ := hfail
          by_cases hle : lo ≤ st.get rep
          · rw [if_pos hle] at hst'
            rw [State.push, hstk2, hms2, if_pos hcap] at hst'
            exact ExecOut.noConfusion hst'
          · rw [if_neg hle] at hst'
            exact ExecOut.noConfusion hst'
        · intro hg'; exact absurd hg' hg
    · intro hg hle
      have hpush : ((st.save rep (st.get rep + 1)).save check ix).push (pc + 1) ix =
          some { (st.save rep (st.get rep + 1)).save check ix with
              stack := (pc + 1, ix,
                ((st.save rep (st.get rep + 1)).save check ix).nsave) ::
                ((st.save rep (st.get rep + 1)).save check ix).stack
              nsave := 0 } := by
        rw [State.push]
        simp only [hstk2, hms2]
        rw [if_pos hcap]
      refine ⟨_, hpush, ?_, ?_, ?_⟩
      · simp only [execInsn, hfetch, if_neg hg, if_pos hle, hpush]
      · show State.get _ rep = st.get rep + 1
        rw [State.get]
        show (((st.save rep (st.get rep + 1)).save check ix).saves).getD rep 0 =
          st.get rep + 1
        exact hget_rep
      · show State.get _ check = ix
        rw [State.get]
        show (((st.save rep (st.get rep + 1)).save check ix).saves).getD check 0 = ix
        exact hget_chk
    · intro hg hlt
      refine ⟨?_, get_save_self _ _ _ hrep, get_save_ne _ _ _ _ (Ne.symm hne),
        save_stack _ _ _⟩
      simp only [execInsn, hfetch, if_neg hg, if_neg (by omega : ¬ lo ≤ st.get rep)]

/-- Witness for C6's amended theorem: a greedy epsilon repeat with
`c = lo = 0` pushes and stores the check slot. -/
theorem C6_repeat_epsilon_semantics_witness :
    (∃ st', execInsn ⟨fun _ => 1, fun _ ix => ix - 1⟩
        ⟨[Insn.repeatEpsilonGr 0 3 0 1], 2⟩ [] 0 0
        ⟨[0, 5], [], [], 0, 2, 10⟩ = ExecOut.fail st') ↔
      0 < State.get ⟨[0, 5], [], [], 0, 2, 10⟩ 0 ∧
        State.get ⟨[0, 5], [], [], 0, 2, 10⟩ 1 = 0 :=
  ((C6_repeat_epsilon_semantics ⟨fun _ => 1, fun _ ix => ix - 1⟩
      ⟨[Insn.repeatEpsilonGr 0 3 0 1], 2⟩ [] 0 0 ⟨[0, 5], [], [], 0, 2, 10⟩
      0 3 0 1 (by decide) (by decide) (by decide) (by decide)).1 rfl).1

/-- C7: `Backref(slot)` fails locally when the referenced group is
unset (`usize::MAX` sentinel) or when the matched span would run past
the end of the input or differs byte-wise from the captured span;
otherwise it advances `ix` to `ix + (hi - lo)`.  All failures are the
`fail` branch that drives backtracking, never an error. -/
theorem C7_backref_semantics (u : Utf8Fns) (prog : Prog) (s : List Nat)
    (pc ix : Nat) (st : State) (slot lo hi : Nat)
    (hfetch : prog.body.get? pc = some (Insn.backref slot))
    (hlo : lo = st.get slot) (hhi : hi = st.get (slot + 1)) :
    (lo = USIZE_MAX → execInsn u prog s pc ix st = ExecOut.fail st) ∧
    (lo ≠ USIZE_MAX → s.length < ix + (hi - lo) →
      execInsn u prog s pc ix st = ExecOut.fail st) ∧
    (lo ≠ USIZE_MAX → ix + (hi - lo) ≤ s.length → lo ≤ hi → hi ≤ s.length →
      ∀ a b, sliceB s ix (ix + (hi - lo)) = some a → sliceB s lo hi = some b →
        (a = b → execInsn u prog s pc ix st =
          ExecOut.next (pc + 1) (ix + (hi - lo)) st) ∧
        (a ≠ b → execInsn u prog s pc ix st = ExecOut.fail st)) := by
  subst hlo
  subst hhi
  refine ⟨?_, ?_, ?_⟩
  · intro hmax
    simp only [execInsn, hfetch, if_pos hmax]
  · intro hmax hpast
    simp only [execInsn, hfetch, if_neg hmax]
    rw [if_pos]
    exact hpast
  · intro hmax hin _ _ a b ha hb
    constructor
    · intro hab
      simp only [execInsn, hfetch, if_neg hmax, if_neg (by omega : ¬ s.length <
        ix + (st.get (slot + 1) - st.get slot)), ha, hb, if_pos hab]
    · intro hab
      simp only [execInsn, hfetch, if_neg hmax, if_neg (by omega : ¬ s.length <
        ix + (st.get (slot + 1) - st.get slot)), ha, hb, if_neg hab]

/-- Witness for C7: backref of an unset group fails locally. -/
theorem C7_backref_semantics_witness :
    execInsn ⟨fun _ => 1, fun _ ix => ix - 1⟩ ⟨[Insn.backref 0], 2⟩ [] 0 0
      (State.new 2 10) = ExecOut.fail (State.new 2 10) :=
  (C7_backref_semantics ⟨fun _ => 1, fun _ ix => ix - 1⟩ ⟨[Insn.backref 0], 2⟩
    [] 0 0 (State.new 2 10) 0 USIZE_MAX USIZE_MAX rfl (by decide) (by decide)).1 rfl

/-- C8: the instructions that read input bytes (`Any`, `AnyNoNL`,
`Lit`, `Backref`) check bounds before every byte access: at or past
end-of-input they take the local-failure branch, and (for `Backref`
under valid capture bounds) the dispatch never reaches an out-of-bounds
read (the `panic` marker). -/
theorem C8_byte_reads_bounds_checked (u : Utf8Fns) (prog : Prog) (s : List Nat)
    (pc ix : Nat) (st : State) :
    (prog.body.get? pc = some Insn.any →
      execInsn u prog s pc ix st ≠ ExecOut.panic ∧
      (s.length ≤ ix → execInsn u prog s pc ix st = ExecOut.fail st)) ∧
    (prog.body.get? pc = some Insn.anyNoNL →
      execInsn u prog s pc ix st ≠ ExecOut.panic ∧
      (s.length ≤ ix → execInsn u prog s pc ix st = ExecOut.fail st)) ∧
    (∀ val, prog.body.get? pc = some (Insn.lit val) →
      execInsn u prog s pc ix st ≠ ExecOut.panic ∧
      (s.length < ix + val.length → execInsn u prog s pc ix st = ExecOut.fail st)) ∧
    (∀ slot, prog.body.get? pc = some (Insn.backref slot) →
      ((st.get slot ≠ USIZE_MAX →
          st.get slot ≤ st.get (slot + 1) ∧ st.get (slot + 1) ≤ s.length) →
        execInsn u prog s pc ix st ≠ ExecOut.panic) ∧
      (st.get slot ≠ USIZE_MAX →
        s.length < ix + (st.get (slot + 1) - st.get slot) →
        execInsn u prog s pc ix st = ExecOut.fail st)) := by
  refine ⟨?_, ?_, ?_, ?_⟩
  · intro hfetch
    simp only [execInsn, hfetch]
    by_cases hlt : ix < s.length
    · rw [if_pos hlt]
      cases hb : s.get? ix with
      | none =>
          exfalso
          have := List.get?_eq_none.mp hb
          omega
      | some b =>
          simp only [codepoint_len_at, hb, Option.map_some']
          exact ⟨fun hc => ExecOut.noConfusion hc, fun hge => by omega⟩
    · rw [if_neg hlt]
      exact ⟨fun hc => ExecOut.noConfusion hc, fun _ => rfl⟩
  · intro hfetch
    simp only [execInsn, hfetch]
    by_cases hlt : ix < s.length
    · rw [if_pos hlt]
      cases hb : s.get? ix with
      | none =>
          exfalso
          have := List.get?_eq_none.mp hb
          omega
      | some b =>
          simp only []
          by_cases hnl : b ≠ 10
          · rw [if_pos hnl]
            simp only [codepoint_len_at, hb, Option.map_some']
            exact ⟨fun hc => ExecOut.noConfusion hc, fun hge => by omega⟩
          · rw [if_neg hnl]
            exact ⟨fun hc => ExecOut.noConfusion hc, fun hge => by omega⟩
    · rw [if_neg hlt]
      exact ⟨fun hc => ExecOut.noConfusion hc, fun _ => rfl⟩
  · intro val hfetch
    simp only [execInsn, hfetch]
    by_cases hpast : ix + val.length > s.length
    · rw [if_pos hpast]
      exact ⟨fun hc => ExecOut.noConfusion hc, fun _ => rfl⟩
    · rw [if_neg hpast]
      have hsl : sliceB s ix (ix + val.length) =
          some ((s.take (ix + val.length)).drop ix) := by
        rw [sliceB, if_pos ⟨Nat.le_add_right _ _, by omega⟩]
      simp only [hsl]
      constructor
      · split <;> exact fun hc => ExecOut.noConfusion hc
      · intro hge; omega
  · intro slot hfetch
    simp only [execInsn, hfetch]
    by_cases hmax : st.get slot = USIZE_MAX
    · rw [if_pos hmax]
      exact ⟨fun _ hc => ExecOut.noConfusion hc, fun hne => absurd hmax hne⟩
    · rw [if_neg hmax]
      by_cases hpast : ix + (st.get (slot + 1) - st.get slot) > s.length
      · rw [if_pos hpast]
        exact ⟨fun _ hc => ExecOut.noConfusion hc, fun _ _ => rfl⟩
      · rw [if_neg hpast]
        refine ⟨?_, fun _ hc => by omega⟩
        intro hv
        obtain ⟨hlohi, hhis⟩ := hv hmax
        have hs1 : sliceB s ix (ix + (st.get (slot + 1) - st.get slot)) =
            some ((s.take (ix + (st.get (slot + 1) - st.get slot))).drop ix) := by
          rw [sliceB, if_pos ⟨Nat.le_add_right _ _, by omega⟩]
        have hs2 : sliceB s (st.get slot) (st.get (slot + 1)) =
            some ((s.take (st.get (slot + 1))).drop (st.get slot)) := by
          rw [sliceB, if_pos ⟨hlohi, hhis⟩]
        simp only [hs1, hs2]
        split <;> exact fun hc => ExecOut.noConfusion hc

/-- Witness for C8: `Any` at end of input fails locally. -/
theorem C8_byte_reads_bounds_checked_witness :
    execInsn ⟨fun _ => 1, fun _ ix => ix - 1⟩ ⟨[Insn.any], 0⟩ [] 0 0
      (State.new 0 10) = ExecOut.fail (State.new 0 10) :=
  ((C8_byte_reads_bounds_checked ⟨fun _ => 1, fun _ ix => ix - 1⟩ ⟨[Insn.any], 0⟩
    [] 0 0 (State.new 0 10)).1 rfl).2 (by decide)

theorem save_saves (st : State) (slot val : Nat) :
    (st.save slot val).saves = st.saves.set slot val := by
  rw [State.save]; split <;> rfl

/-- C9 counterexample: after one `stack_push` on a fresh two-slot state
the explicit stack has depth 1, but slot `explicit_sp = 2` holds 4 (the
index of the next free slot, `explicit_sp + 1 + depth`), not the depth. -/
theorem C9_explicit_stack_counterexample :
    ((State.new 2 MAX_STACK).stack_push 7).get 2 = 4 ∧
    ¬ ((State.new 2 MAX_STACK).stack_push 7).get 2 = 1 := by
  constructor <;> decide

/-- C9 amended: slot `explicit_sp` holds `explicit_sp + 1 + depth` (the
index of the next free explicit-stack slot), not the depth itself, and
slots `explicit_sp + 1, explicit_sp + 2, …` hold the pushed values in
order; this layout is established by the first `stack_push` on a fresh
state and preserved by `stack_push`, `stack_pop`, and `save`s to slots
below `explicit_sp`. -/
theorem C9_explicit_stack_layout (st : State) (vals : List Nat) (v : Nat) :
    (st.saves.length = st.explicit_sp → ExpStackInv (st.stack_push v) [v]) ∧
    (ExpStackInv st vals → ExpStackInv (st.stack_push v) (vals ++ [v])) ∧
    (ExpStackInv st (vals ++ [v]) →
      (st.stack_pop).1 = v ∧ ExpStackInv (st.stack_pop).2 vals) ∧
    (∀ slot val, slot < st.explicit_sp → ExpStackInv st vals →
      ExpStackInv (st.save slot val) vals) := by
  refine ⟨?_, ?_, ?_, ?_⟩
  · intro hfresh
    have hg1 : ({ st with saves := st.saves ++ [st.explicit_sp + 1] } : State).get
        st.explicit_sp = st.explicit_sp + 1 := by
      show (st.saves ++ [st.explicit_sp + 1]).getD st.explicit_sp 0 = st.explicit_sp + 1
      rw [getD_append_at _ _ _ 0 (by omega)]
      rfl
    have hlen1 : ({ st with saves := st.saves ++ [st.explicit_sp + 1] } : State).saves.length
        = st.explicit_sp + 1 := by
      show (st.saves ++ [st.explicit_sp + 1]).length = st.explicit_sp + 1
      rw [List.length_append, hfresh]
      rfl
    rw [State.stack_push, if_pos hfresh, hg1, if_pos hlen1]
    simp only [ExpStackInv, State.get, save_saves, save_explicit_sp]
    refine ⟨?_, ?_, ?_⟩
    · show st.explicit_sp + 1 + [v].length ≤
        (((st.saves ++ [st.explicit_sp + 1]) ++ [v]).set st.explicit_sp
          (st.explicit_sp + 1 + 1)).length
      rw [List.length_set, List.length_append, List.length_append, hfresh]
      simp only [List.length_cons, List.length_nil]
      omega
    · show (((st.saves ++ [st.explicit_sp + 1]) ++ [v]).set st.explicit_sp
        (st.explicit_sp + 1 + 1)).getD st.explicit_sp 0 = st.explicit_sp + 1 + [v].length
      rw [getD_set_self _ _ _ (by
        rw [List.length_append, List.length_append, hfresh]
        simp only [List.length_cons, List.length_nil]
        omega)]
      rfl
    · intro i hi
      have hi0 : i = 0 := by simpa using hi
      subst hi0
      show (((st.saves ++ [st.explicit_sp + 1]) ++ [v]).set st.explicit_sp
        (st.explicit_sp + 1 + 1)).getD (st.explicit_sp + 1 + 0) 0 = [v].getD 0 0
      rw [getD_set_ne _ _ _ _ (by omega)]
      rw [getD_append_at _ _ _ 0 (by
        rw [List.length_append, hfresh]
        simp only [List.length_cons, List.length_nil])]
  · rintro ⟨hlen, hsp, hvals⟩
    have hA : ¬ st.saves.length = st.explicit_sp := by omega
    rw [State.stack_push, if_neg hA, hsp]
    by_cases hB : st.saves.length = st.explicit_sp + 1 + vals.length
    · rw [if_pos hB]
      simp only [ExpStackInv, State.get, save_saves, save_explicit_sp]
      refine ⟨?_, ?_, ?_⟩
      · show st.explicit_sp + 1 + (vals ++ [v]).length ≤
          ((st.saves ++ [v]).set st.explicit_sp
            (st.explicit_sp + 1 + vals.length + 1)).length
        rw [List.length_set, List.length_append, List.length_append]
        simp only [List.length_cons, List.length_nil]
        omega
      · show ((st.saves ++ [v]).set st.explicit_sp
            (st.explicit_sp + 1 + vals.length + 1)).getD st.explicit_sp 0 =
          st.explicit_sp + 1 + (vals ++ [v]).length
        rw [getD_set_self _ _ _ (by rw [List.length_append]; omega),
          List.length_append]
        simp only [List.length_cons, List.length_nil]
        omega
      · intro i hi
        show ((st.saves ++ [v]).set st.explicit_sp
            (st.explicit_sp + 1 + vals.length + 1)).getD (st.explicit_sp + 1 + i) 0 =
          (vals ++ [v]).getD i 0
        rw [getD_set_ne _ _ _ _ (by omega)]
        rw [List.length_append, List.length_cons, List.length_nil] at hi
        by_cases hiv : i < vals.length
        · rw [getD_append_left _ _ _ (by omega), getD_append_left _ _ _ hiv]
          exact hvals i hiv
        · have hieq : i = vals.length := by omega
          subst hieq
          rw [getD_append_at st.saves [v] _ 0 (by omega),
            getD_append_at vals [v] _ 0 (by omega)]
    · rw [if_neg hB]
      have hsplt : st.explicit_sp + 1 + vals.length < st.saves.length := by omega
      simp only [ExpStackInv, State.get, save_saves, save_explicit_sp]
      refine ⟨?_, ?_, ?_⟩
      · show st.explicit_sp + 1 + (vals ++ [v]).length ≤
          ((st.saves.set (st.explicit_sp + 1 + vals.length) v).set st.explicit_sp
            (st.explicit_sp + 1 + vals.length + 1)).length
        rw [List.length_set, List.length_set, List.length_append]
        simp only [List.length_cons, List.length_nil]
        omega
      · show ((st.saves.set (st.explicit_sp + 1 + vals.length) v).set st.explicit_sp
            (st.explicit_sp + 1 + vals.length + 1)).getD st.explicit_sp 0 =
          st.explicit_sp + 1 + (vals ++ [v]).length
        rw [getD_set_self _ _ _ (by rw [List.length_set]; omega), List.length_append]
        simp only [List.length_cons, List.length_nil]
        omega
      · intro i hi
        show ((st.saves.set (st.explicit_sp + 1 + vals.length) v).set st.explicit_sp
            (st.explicit_sp + 1 + vals.length + 1)).getD (st.explicit_sp + 1 + i) 0 =
          (vals ++ [v]).getD i 0
        rw [getD_set_ne _ _ _ _ (by omega)]
        rw [List.length_append, List.length_cons, List.length_nil] at hi
        by_cases hiv : i < vals.length
        · rw [getD_set_ne _ _ _ _ (by omega), getD_append_left _ _ _ hiv]
          exact hvals i hiv
        · have hieq : i = vals.length := by omega
          subst hieq
          rw [getD_set_self _ _ _ hsplt,
            getD_append_at vals [v] _ 0 (by omega)]
          rfl
  · rintro ⟨hlen, hsp, hvals⟩
    rw [List.length_append, List.length_cons, List.length_nil] at hlen
    have hspv : st.get st.explicit_sp = st.explicit_sp + 1 + vals.length + 1 := by
      rw [hsp, List.length_append]
      simp only [List.length_cons, List.length_nil]
      omega
    have hd : st.get st.explicit_sp - 1 = st.explicit_sp + 1 + vals.length := by omega
    rw [State.stack_pop]
    constructor
    · show st.get (st.get st.explicit_sp - 1) = v
      rw [hd]
      have hvv := hvals vals.length (by
        rw [List.length_append]
        simp only [List.length_cons, List.length_nil]
        omega)
      rw [hvv, getD_append_at vals [v] _ 0 (by omega)]
      rfl
    · show ExpStackInv (st.save st.explicit_sp (st.get st.explicit_sp - 1)) vals
      rw [hd]
      simp only [ExpStackInv, State.get, save_saves, save_explicit_sp]
      refine ⟨?_, ?_, ?_⟩
      · rw [List.length_set]
        omega
      · exact getD_set_self _ _ _ (by omega)
      · intro i hi
        rw [getD_set_ne _ _ _ _ (by omega)]
        have hvv := hvals i (by
          rw [List.length_append]
          simp only [List.length_cons, List.length_nil]
          omega)
        rw [State.get] at hvv
        rw [hvv, getD_append_left _ _ _ hi]
  · rintro slot val hslot ⟨hlen, hsp, hvals⟩
    simp only [ExpStackInv, State.get, save_saves, save_explicit_sp]
    refine ⟨?_, ?_, ?_⟩
    · rw [List.length_set]
      exact hlen
    · rw [getD_set_ne _ _ _ _ (by omega)]
      exact hsp
    · intro i hi
      rw [getD_set_ne _ _ _ _ (by omega)]
      exact hvals i hi

/-- Witness for C9's amended theorem: the first push on a fresh state. -/
theorem C9_explicit_stack_layout_witness :
    ExpStackInv ((State.new 2 MAX_STACK).stack_push 7) [7] :=
  (C9_explicit_stack_layout (State.new 2 MAX_STACK) [] 7).1 (by decide)

theorem save_eq_unlogged {st : State} {slot val : Nat}
    (h : ¬ (st.oldsave.take st.nsave).any (fun e => e.1 == slot) = true) :
    st.save slot val =
      { st with
          oldsave := (slot, st.saves.getD slot 0) :: st.oldsave
          nsave := st.nsave + 1
          saves := st.saves.set slot val } := by
  rw [State.save, if_neg h]

theorem save_eq_logged {st : State} {slot val : Nat}
    (h : (st.oldsave.take st.nsave).any (fun e => e.1 == slot) = true) :
    st.save slot val = { st with saves := st.saves.set slot val } := by
  rw [State.save, if_pos h]

/-- C10: immediately after `stack_push(v)`, `stack_pop()` returns `v`
and leaves `get(explicit_sp)` at its value before the push; and because
the pair's slot mutations are routed through `save`, a later `pop()` of
a frame pushed before the pair restores every slot that existed before
the push to its pre-push value.  The hypotheses say the explicit-stack
region is well-formed (`explicit_sp < sp ≤ len`), as in every reachable
state after a first `BeginAtomic`. -/
theorem C10_stack_push_pop_roundtrip (st0 : State) (pc ix v : Nat)
    (hcap : st0.stack.length < st0.max_stack)
    (hesp : st0.explicit_sp < st0.saves.length)
    (hsp1 : st0.explicit_sp < st0.get st0.explicit_sp)
    (hsp2 : st0.get st0.explicit_sp ≤ st0.saves.length) :
    ∃ st1, st0.push pc ix = some st1 ∧
      (st1.stack_push v).stack_pop.1 = v ∧
      ((st1.stack_push v).stack_pop.2).get st0.explicit_sp =
        st0.get st0.explicit_sp ∧
      ∃ st3, ((st1.stack_push v).stack_pop.2).pop = some ((pc, ix), st3) ∧
        st3.stack = st0.stack ∧ st3.nsave = st0.nsave ∧ st3.oldsave = st0.oldsave ∧
        ∀ j, j < st0.saves.length → st3.saves.getD j 0 = st0.saves.getD j 0 := by
  have hpush : st0.push pc ix =
      some ⟨st0.saves, (pc, ix, st0.nsave) :: st0.stack, st0.oldsave, 0,
        st0.explicit_sp, st0.max_stack⟩ := by
    rw [State.push, if_pos hcap]
  set st1 : State := ⟨st0.saves, (pc, ix, st0.nsave) :: st0.stack, st0.oldsave, 0,
    st0.explicit_sp, st0.max_stack⟩ with hst1
  rw [State.get] at hsp1 hsp2
  refine ⟨st1, hpush, ?_⟩
  by_cases hA : st0.saves.length = st0.saves.getD st0.explicit_sp 0
  · have hP : st1.stack_push v =
        ⟨(st0.saves ++ [v]).set st0.explicit_sp
            (st0.saves.getD st0.explicit_sp 0 + 1),
          (pc, ix, st0.nsave) :: st0.stack,
          (st0.explicit_sp, st0.saves.getD st0.explicit_sp 0) :: st0.oldsave,
          1, st0.explicit_sp, st0.max_stack⟩ := by
      rw [State.stack_push]
      simp only [State.get, hst1]
      rw [if_neg (by omega : ¬ st0.saves.length = st0.explicit_sp), if_pos hA]
      rw [save_eq_unlogged (by simp)]
      have hgv : (st0.saves ++ [v]).getD st0.explicit_sp 0 =
          st0.saves.getD st0.explicit_sp 0 :=
        getD_append_left _ _ _ hesp
      simp only [hgv]
    have hQ : (st1.stack_push v).stack_pop =
        (v, ⟨((st0.saves ++ [v]).set st0.explicit_sp
              (st0.saves.getD st0.explicit_sp 0 + 1)).set st0.explicit_sp
              (st0.saves.getD st0.explicit_sp 0),
            (pc, ix, st0.nsave) :: st0.stack,
            (st0.explicit_sp, st0.saves.getD st0.explicit_sp 0) :: st0.oldsave,
            1, st0.explicit_sp, st0.max_stack⟩) := by
      rw [hP, State.stack_pop]
      simp only [State.get]
      have hge : (((st0.saves ++ [v]).set st0.explicit_sp
          (st0.saves.getD st0.explicit_sp 0 + 1)).getD st0.explicit_sp 0) =
          st0.saves.getD st0.explicit_sp 0 + 1 :=
        getD_set_self _ _ _ (by rw [List.length_append]; omega)
      rw [hge]
      have hd1 : st0.saves.getD st0.explicit_sp 0 + 1 - 1 =
          st0.saves.getD st0.explicit_sp 0 := by omega
      rw [hd1]
      have hgv2 : (((st0.saves ++ [v]).set st0.explicit_sp
          (st0.saves.getD st0.explicit_sp 0 + 1)).getD
            (st0.saves.getD st0.explicit_sp 0) 0) = v := by
        rw [getD_set_ne _ _ _ _ (by omega),
          getD_append_at _ _ _ 0 (by omega)]
        rfl
      rw [hgv2, save_eq_logged (by simp)]
    rw [hQ]
    refine ⟨rfl, ?_, ?_⟩
    · show (((st0.saves ++ [v]).set st0.explicit_sp
          (st0.saves.getD st0.explicit_sp 0 + 1)).set st0.explicit_sp
          (st0.saves.getD st0.explicit_sp 0)).getD st0.explicit_sp 0 =
        st0.saves.getD st0.explicit_sp 0
      refine getD_set_self _ _ _ ?_
      rw [List.length_set, List.length_append]
      omega
    · refine ⟨_, rfl, rfl, rfl, rfl, ?_⟩
      intro j hj
      show (State.applyUndo
          (((st0.explicit_sp, st0.saves.getD st0.explicit_sp 0) ::
            st0.oldsave).take 1) _).getD j 0 = st0.saves.getD j 0
      rw [List.take_succ_cons, List.take_zero]
      show ((((st0.saves ++ [v]).set st0.explicit_sp
          (st0.saves.getD st0.explicit_sp 0 + 1)).set st0.explicit_sp
          (st0.saves.getD st0.explicit_sp 0)).set st0.explicit_sp
          (st0.saves.getD st0.explicit_sp 0)).getD j 0 = st0.saves.getD j 0
      by_cases hje : j = st0.explicit_sp
      · subst hje
        rw [getD_set_self _ _ _ (by
          rw [List.length_set, List.length_set, List.length_append]; omega)]
      · rw [getD_set_ne _ _ _ _ (fun hc => hje hc.symm),
          getD_set_ne _ _ _ _ (fun hc => hje hc.symm),
          getD_set_ne _ _ _ _ (fun hc => hje hc.symm),
          getD_append_left _ _ _ hj]
  · have hsplt : st0.saves.getD st0.explicit_sp 0 < st0.saves.length := by omega
    have hP : st1.stack_push v =
        ⟨(st0.saves.set (st0.saves.getD st0.explicit_sp 0) v).set st0.explicit_sp
            (st0.saves.getD st0.explicit_sp 0 + 1),
          (pc, ix, st0.nsave) :: st0.stack,
          (st0.explicit_sp, st0.saves.getD st0.explicit_sp 0) ::
            (st0.saves.getD st0.explicit_sp 0, st0.saves.getD
              (st0.saves.getD st0.explicit_sp 0) 0) :: st0.oldsave,
          2, st0.explicit_sp, st0.max_stack⟩ := by
      rw [State.stack_push]
      simp only [State.get, hst1]
      rw [if_neg (by omega : ¬ st0.saves.length = st0.explicit_sp), if_neg hA]
      have hgv : (st0.saves.set (st0.saves.getD st0.explicit_sp 0) v).getD
          st0.explicit_sp 0 = st0.saves.getD st0.explicit_sp 0 :=
        getD_set_ne _ _ _ _ (by omega)
      have h1 : State.save ⟨st0.saves, (pc, ix, st0.nsave) :: st0.stack,
            st0.oldsave, 0, st0.explicit_sp, st0.max_stack⟩
            (st0.saves.getD st0.explicit_sp 0) v =
          ⟨st0.saves.set (st0.saves.getD st0.explicit_sp 0) v,
            (pc, ix, st0.nsave) :: st0.stack,
            (st0.saves.getD st0.explicit_sp 0,
              st0.saves.getD (st0.saves.getD st0.explicit_sp 0) 0) :: st0.oldsave,
            1, st0.explicit_sp, st0.max_stack⟩ :=
        save_eq_unlogged (by simp)
      rw [h1]
      have h2 : State.save ⟨st0.saves.set (st0.saves.getD st0.explicit_sp 0) v,
            (pc, ix, st0.nsave) :: st0.stack,
            (st0.saves.getD st0.explicit_sp 0,
              st0.saves.getD (st0.saves.getD st0.explicit_sp 0) 0) :: st0.oldsave,
            1, st0.explicit_sp, st0.max_stack⟩ st0.explicit_sp
            (st0.saves.getD st0.explicit_sp 0 + 1) =
          ⟨(st0.saves.set (st0.saves.getD st0.explicit_sp 0) v).set st0.explicit_sp
              (st0.saves.getD st0.explicit_sp 0 + 1),
            (pc, ix, st0.nsave) :: st0.stack,
            (st0.explicit_sp,
              (st0.saves.set (st0.saves.getD st0.explicit_sp 0) v).getD
                st0.explicit_sp 0) ::
              (st0.saves.getD st0.explicit_sp 0,
                st0.saves.getD (st0.saves.getD st0.explicit_sp 0) 0) :: st0.oldsave,
            2, st0.explicit_sp, st0.max_stack⟩ :=
        save_eq_unlogged (by
          show ¬ ((((st0.saves.getD st0.explicit_sp 0,
              st0.saves.getD (st0.saves.getD st0.explicit_sp 0) 0) ::
                st0.oldsave).take 1).any
              (fun e => e.1 == st0.explicit_sp) = true)
          simp only [List.take_succ_cons, List.take_zero, List.any_cons,
            List.any_nil, Bool.or_false, beq_iff_eq]
          omega)
      rw [h2]
      simp only [hgv]
    have hQ : (st1.stack_push v).stack_pop =
        (v, ⟨((st0.saves.set (st0.saves.getD st0.explicit_sp 0) v).set
              st0.explicit_sp (st0.saves.getD st0.explicit_sp 0 + 1)).set
              st0.explicit_sp (st0.saves.getD st0.explicit_sp 0),
            (pc, ix, st0.nsave) :: st0.stack,
            (st0.explicit_sp, st0.saves.getD st0.explicit_sp 0) ::
              (st0.saves.getD st0.explicit_sp 0, st0.saves.getD
                (st0.saves.getD st0.explicit_sp 0) 0) :: st0.oldsave,
            2, st0.explicit_sp, st0.max_stack⟩) := by
      rw [hP, State.stack_pop]
      simp only [State.get]
      have hge : (((st0.saves.set (st0.saves.getD st0.explicit_sp 0) v).set
          st0.explicit_sp (st0.saves.getD st0.explicit_sp 0 + 1)).getD
            st0.explicit_sp 0) = st0.saves.getD st0.explicit_sp 0 + 1 :=
        getD_set_self _ _ _ (by rw [List.length_set]; omega)
      rw [hge]
      have hd1 : st0.saves.getD st0.explicit_sp 0 + 1 - 1 =
          st0.saves.getD st0.explicit_sp 0 := by omega
      rw [hd1]
      have hgv2 : (((st0.saves.set (st0.saves.getD st0.explicit_sp 0) v).set
          st0.explicit_sp (st0.saves.getD st0.explicit_sp 0 + 1)).getD
            (st0.saves.getD st0.explicit_sp 0) 0) = v := by
        rw [getD_set_ne _ _ _ _ (by omega), getD_set_self _ _ _ hsplt]
      rw [hgv2, save_eq_logged (by simp)]
    rw [hQ]
    refine ⟨rfl, ?_, ?_⟩
    · show (((st0.saves.set (st0.saves.getD st0.explicit_sp 0) v).set
          st0.explicit_sp (st0.saves.getD st0.explicit_sp 0 + 1)).set
          st0.explicit_sp (st0.saves.getD st0.explicit_sp 0)).getD
          st0.explicit_sp 0 = st0.saves.getD st0.explicit_sp 0
      refine getD_set_self _ _ _ ?_
      rw [List.length_set, List.length_set]
      omega
    · refine ⟨_, rfl, rfl, rfl, rfl, ?_⟩
      intro j hj
      show (State.applyUndo
          (((st0.explicit_sp, st0.saves.getD st0.explicit_sp 0) ::
            (st0.saves.getD st0.explicit_sp 0, st0.saves.getD
              (st0.saves.getD st0.explicit_sp 0) 0) :: st0.oldsave).take 2) _).getD
          j 0 = st0.saves.getD j 0
      rw [List.take_succ_cons, List.take_succ_cons, List.take_zero]
      show (((((st0.saves.set (st0.saves.getD st0.explicit_sp 0) v).set
          st0.explicit_sp (st0.saves.getD st0.explicit_sp 0 + 1)).set
          st0.explicit_sp (st0.saves.getD st0.explicit_sp 0)).set
          st0.explicit_sp (st0.saves.getD st0.explicit_sp 0)).set
          (st0.saves.getD st0.explicit_sp 0)
          (st0.saves.getD (st0.saves.getD st0.explicit_sp 0) 0)).getD j 0 =
        st0.saves.getD j 0
      by_cases hjs : j = st0.saves.getD st0.explicit_sp 0
      · subst hjs
        rw [getD_set_self _ _ _ (by
          simp only [List.length_set]
          omega)]
      · rw [getD_set_ne _ _ _ _ (fun hc => hjs hc.symm)]
        by_cases hje : j = st0.explicit_sp
        · subst hje
          rw [getD_set_self _ _ _ (by
            simp only [List.length_set]
            omega)]
        · rw [getD_set_ne _ _ _ _ (fun hc => hje hc.symm),
            getD_set_ne _ _ _ _ (fun hc => hje hc.symm),
            getD_set_ne _ _ _ _ (fun hc => hje hc.symm),
            getD_set_ne _ _ _ _ (fun hc => hjs hc.symm)]

/-- Witness for C10 at a concrete state with one explicit-stack cell. -/
theorem C10_stack_push_pop_roundtrip_witness :
    ∃ st1, (⟨[9, 3, 8], [], [], 0, 1, 4⟩ : State).push 6 2 = some st1 ∧
      (st1.stack_push 7).stack_pop.1 = 7 ∧
      ((st1.stack_push 7).stack_pop.2).get 1 =
        (⟨[9, 3, 8], [], [], 0, 1, 4⟩ : State).get 1 ∧
      ∃ st3, ((st1.stack_push 7).stack_pop.2).pop = some ((6, 2), st3) ∧
        st3.stack = (⟨[9, 3, 8], [], [], 0, 1, 4⟩ : State).stack ∧
        st3.nsave = (⟨[9, 3, 8], [], [], 0, 1, 4⟩ : State).nsave ∧
        st3.oldsave = (⟨[9, 3, 8], [], [], 0, 1, 4⟩ : State).oldsave ∧
        ∀ j, j < (⟨[9, 3, 8], [], [], 0, 1, 4⟩ : State).saves.length →
          st3.saves.getD j 0 = (⟨[9, 3, 8], [], [], 0, 1, 4⟩ : State).saves.getD j 0 :=
  C10_stack_push_pop_roundtrip ⟨[9, 3, 8], [], [], 0, 1, 4⟩ 6 2 7
    (by decide) (by decide) (by decide) (by decide)

/-- Witness for C4: a `Split` on a zero-capacity stack overflows. -/
theorem C4_run_three_outcomes_witness :
    execInsn ⟨fun _ => 1, fun _ ix => ix - 1⟩ ⟨[Insn.split 1 2], 0⟩ [] 0 0
      (State.new 0 0) = ExecOut.oflow :=
  ((C4_run_three_outcomes ⟨fun _ => 1, fun _ ix => ix - 1⟩ ⟨[Insn.split 1 2], 0⟩
      []).2.2.2.1 0 0 (State.new 0 0) (Insn.split 1 2) rfl).mpr
    ⟨trivial, by decide⟩

end Vm
